import Mathlib

/-!
# Verification of the write-book-template export pipeline

Shallow embedding of the Markdown path-rewriting subsystem
(`scripts/convert_to_absolute.py`, `scripts/convert_to_relative.py`,
`scripts/normalize_toc_links.py`) and of the exporter modules
(`exporter/pandoc_cmd.py`, `exporter/fsops.py`, `exporter/metadata.py`,
`exporter/pipeline.py`, `exporter/validators.py`).

Text is modelled as `List Char`; the filesystem is an explicit parameter
(an existence predicate on resolved absolute paths, or a small record for
the directory-level operations).  All functions are executable and use
structural recursion (with explicit fuel where the Python loop does not
consume its input one character at a time), so concrete inputs evaluate
by `decide` / `rfl`.
-/

namespace BookExport

/-- Text is a list of characters (Python `str`). -/
abbrev Text := List Char

/-- The backtick character, U+0060. -/
def btick : Char := Char.ofNat 96

/-- The opening brace character, U+007B. -/
def lbrace : Char := Char.ofNat 123

/-- The closing brace character, U+007D. -/
def rbrace : Char := Char.ofNat 125

/-- Python `str.isspace` for the ASCII whitespace characters that matter in
the regexes involved (`\s` on ASCII text). -/
def isWs (c : Char) : Bool :=
  c = ' ' ∨ c = '\t' ∨ c = '\n' ∨ c = '\r' ∨ c = Char.ofNat 11 ∨ c = Char.ofNat 12

/-- Decide whether `pat` is a prefix of `s` (Python `str.startswith`). -/
def isPre : Text → Text → Bool
  | [], _ => true
  | _ :: _, [] => false
  | p :: ps, c :: cs => p = c && isPre ps cs

/-- First index `≥ base` at which `pat` occurs in `s` (Python `str.find`,
restricted to a suffix).  `s` is the suffix starting at `base`. -/
def findAux (pat : Text) : Text → Nat → Option Nat
  | [], i => if pat = [] then some i else none
  | s@(_ :: t), i => if isPre pat s then some i else findAux pat t (i + 1)

/-- Python `s.find(pat)` on a whole text. -/
def findSub (pat s : Text) : Option Nat := findAux pat s 0

/-- Split at the first occurrence of character `c`: returns the part before
and the part after (the occurrence itself dropped), or `none`. -/
def splitAtChar (c : Char) : Text → Option (Text × Text)
  | [] => none
  | d :: t =>
    if d = c then some ([], t)
    else (splitAtChar c t).map fun p => (d :: p.1, p.2)

/-- Python `str.lstrip()` (whitespace). -/
def lstrip : Text → Text
  | [] => []
  | c :: t => if isWs c then lstrip t else c :: t

/-- Python `str.rstrip()` (whitespace). -/
def rstrip (s : Text) : Text := (lstrip s.reverse).reverse

/-- Python `str.strip()` (whitespace). -/
def strip (s : Text) : Text := rstrip (lstrip s)

/-- Python `str.replace(pat, repl)`: replace all non-overlapping
occurrences, left to right.  `pat` is expected nonempty (as in the source,
where it is a placeholder token).  Fuel bounds the recursion; each step
consumes at least one character of `s`. -/
def replaceAll (fuel : Nat) (pat repl s : Text) : Text :=
  match fuel with
  | 0 => s
  | fuel + 1 =>
    match s with
    | [] => []
    | c :: t =>
      if isPre pat s then
        if pat.length = 0 then s
        else repl ++ replaceAll fuel pat repl (s.drop pat.length)
      else c :: replaceAll fuel pat repl t

/-- `str.replace` with enough fuel for the whole text. -/
def pyReplace (s pat repl : Text) : Text := replaceAll (s.length + 1) pat repl s

/-! ## Path model

An absolute path is a list of components below the filesystem root
(`[] = "/"`).  This mirrors `pathlib.PurePosixPath.parts` minus the root
marker.  `resolve` collapses `.` and `..` lexically, which is what
`Path.resolve(strict=False)` does for paths that need no symlink
processing. -/

/-- Path components (each a component string). -/
abbrev Comps := List Text

/-- Python `str.split('/')`. -/
def splitOnSlash : Text → List Text
  | [] => [[]]
  | c :: t =>
    if c = '/' then [] :: splitOnSlash t
    else
      match splitOnSlash t with
      | h :: r => (c :: h) :: r
      | [] => [[c]]

/-- Split a path string on `/`, dropping empty components and `.`
(as `pathlib` does when parsing). `..` components are kept. -/
def splitPath (s : Text) : Comps :=
  ((splitOnSlash s).filter fun c => c ≠ [] ∧ c ≠ ".".data)

/-- Apply one component to an absolute-path accumulator: `..` pops,
anything else pushes (`pathlib` lexical normalization at the root keeps
the root). -/
def applyComp (acc : Comps) (c : Text) : Comps :=
  if c = "..".data then acc.dropLast else acc ++ [c]

/-- `(base / rel).resolve()` where `base` is already an absolute,
normalized directory: join then collapse `.` and `..` lexically. -/
def resolveRel (base : Comps) (rel : Text) : Comps :=
  (splitPath rel).foldl applyComp base

/-- `Path(s).resolve()` for an absolute path string `s`. -/
def resolveAbsStr (s : Text) : Comps :=
  (splitPath s).foldl applyComp []

/-- Render an absolute path (Python `str(Path)` for an absolute path). -/
def renderAbs (p : Comps) : Text :=
  '/' :: (p.intersperse "/".data).flatten

/-- Length of the longest common prefix of two component lists
(`os.path.commonprefix` on split components). -/
def commonLen : Comps → Comps → Nat
  | a :: as, b :: bs => if a = b then commonLen as bs + 1 else 0
  | _, _ => 0

/-- `os.path.relpath(path, start)` on resolved component lists, followed by
`Path(...).as_posix()`: `..` segments up to the common ancestor, then the
remaining components; `.` if the result would be empty. -/
def relpathComps (path start : Comps) : Text :=
  let k := commonLen path start
  let parts : Comps := (List.replicate (start.length - k) "..".data) ++ path.drop k
  if parts = [] then ".".data
  else (parts.intersperse "/".data).flatten

/-- `os.path.isabs` / `p.startswith("/")` as used by the scripts. -/
def isAbsPath (s : Text) : Bool :=
  match s with
  | c :: _ => c = '/'
  | [] => false

/-! ## `scripts/convert_to_absolute.py` -/

/-- Three backticks, the fence delimiter of `FENCE_RE`. -/
def tick3 : Text := [btick, btick, btick]

/-- The placeholder token `{{FENCE_<i>}}` produced by `_protect_segments`. -/
def fenceToken (i : Nat) : Text :=
  [lbrace, lbrace] ++ "FENCE_".data ++ Nat.toDigits 10 i ++ [rbrace, rbrace]

/-- The placeholder token `{{INLINE_<i>}}` produced by `_protect_segments`. -/
def inlineToken (i : Nat) : Text :=
  [lbrace, lbrace] ++ "INLINE_".data ++ Nat.toDigits 10 i ++ [rbrace, rbrace]

/-- `FENCE_RE.sub`: repeatedly replace the leftmost lazily-matched
```` ```.*?``` ```` block with a fresh `{{FENCE_i}}` token, collecting the
token/original mapping in order.  If an opening triple backtick has no
closing one, no further match exists (any later opening would need a
closing even further right). -/
def protectFenceLoop (fuel idx : Nat) (s : Text) : Text × List (Text × Text) × Nat :=
  match fuel with
  | 0 => (s, [], idx)
  | fuel + 1 =>
    match findSub tick3 s with
    | none => (s, [], idx)
    | some i =>
      let pre := s.take i
      let rest := s.drop (i + 3)
      match findSub tick3 rest with
      | none => (s, [], idx)
      | some j =>
        let content := rest.take j
        let rest2 := rest.drop (j + 3)
        let tok := fenceToken idx
        let out := protectFenceLoop fuel (idx + 1) rest2
        (pre ++ tok ++ out.1, (tok, tick3 ++ content ++ tick3) :: out.2.1, out.2.2)

/-- `INLINE_CODE_RE.sub`: replace each `` `[^`]*` `` span (leftmost-first)
with a fresh `{{INLINE_i}}` token. -/
def protectInlineLoop (fuel idx : Nat) (s : Text) : Text × List (Text × Text) × Nat :=
  match fuel with
  | 0 => (s, [], idx)
  | fuel + 1 =>
    match findSub [btick] s with
    | none => (s, [], idx)
    | some i =>
      let pre := s.take i
      let rest := s.drop (i + 1)
      match findSub [btick] rest with
      | none => (s, [], idx)
      | some j =>
        let content := rest.take j
        let rest2 := rest.drop (j + 1)
        let tok := inlineToken idx
        let out := protectInlineLoop fuel (idx + 1) rest2
        (pre ++ tok ++ out.1, (tok, btick :: content ++ [btick]) :: out.2.1, out.2.2)

/-- `_protect_segments`: fences first, then inline code, one shared token
counter (the Python closure shares `idx` between the two passes). -/
def protectSegments (s : Text) : Text × List (Text × Text) :=
  let f := protectFenceLoop (s.length + 1) 0 s
  let g := protectInlineLoop (f.1.length + 1) f.2.2 f.1
  (g.1, f.2.1 ++ g.2.1)

/-- `_restore_segments`: sequentially `str.replace` each token by its
original, in mapping (insertion) order. -/
def restoreSegments (s : Text) (mapping : List (Text × Text)) : Text :=
  mapping.foldl (fun acc p => pyReplace acc p.1 p.2) s

/-- ASCII letter test for the scheme regexes. -/
def isAlphaCh (c : Char) : Bool :=
  ('a' ≤ c ∧ c ≤ 'z') ∨ ('A' ≤ c ∧ c ≤ 'Z')

/-- Character class `[a-zA-Z0-9+.\-]` of `URLISH_RE`. -/
def isSchemeCh (c : Char) : Bool :=
  isAlphaCh c ∨ ('0' ≤ c ∧ c ≤ '9') ∨ c = '+' ∨ c = '.' ∨ c = '-'

/-- After the leading letter: `[a-zA-Z0-9+.\-]*:` (the class excludes `:`,
so matching is deterministic). -/
def schemeRest : Text → Bool
  | [] => false
  | c :: t => if c = ':' then true else if isSchemeCh c then schemeRest t else false

/-- `_is_url_like` (`URLISH_RE`): a scheme prefix or a leading `//`. -/
def isUrlLike (t : Text) : Bool :=
  (match t with
   | c :: rest => isAlphaCh c && schemeRest rest
   | [] => false) || isPre "//".data t

/-- The inner parenthesis scanner of `_find_image_tag`: simple balance with
angle-bracket awareness; returns the text inside the image parentheses and
the rest after the closing `)`, or `none` when malformed. -/
def scanParens : Text → Nat → Bool → Option (Text × Text)
  | [], _, _ => none
  | c :: t, depth, inAngle =>
    if inAngle then
      (scanParens t depth (c ≠ '>')).map fun p => (c :: p.1, p.2)
    else if depth = 0 ∧ c = '<' then
      (scanParens t depth true).map fun p => (c :: p.1, p.2)
    else if c = '(' then
      (scanParens t (depth + 1) false).map fun p => (c :: p.1, p.2)
    else if c = ')' then
      if depth = 0 then some ([], t)
      else (scanParens t (depth - 1) false).map fun p => (c :: p.1, p.2)
    else
      (scanParens t depth false).map fun p => (c :: p.1, p.2)

/-- A well-formed Markdown image occurrence: the text decomposes as
`pre ++ "![" ++ alt ++ "](" ++ inside ++ ")" ++ rest`. -/
structure ImgTag where
  pre : Text
  alt : Text
  inside : Text
  rest : Text
deriving Repr, DecidableEq

/-- The candidate parse after a `!`: `[` then alt up to `]`, then `(` and a
balanced-paren scan.  Fails (returns `none`) when any piece is missing. -/
def imgCandidate : Text → Option ImgTag
  | '[' :: u =>
    match splitAtChar ']' u with
    | some (alt, v) =>
      match v with
      | '(' :: w =>
        match scanParens w 0 false with
        | some (inside, rest) => some ⟨[], alt, inside, rest⟩
        | none => none
      | _ => none
    | none => none
  | _ => none

/-- `_find_image_tag`: find the next well-formed image.  A failed candidate
(`![` with no `]`, no following `(`, or unbalanced parentheses) is skipped
and the search continues after it, exactly as the Python `pos = i + 2`
retry (no new candidate can start one character after `![`). -/
def findImageTag : Text → Option ImgTag
  | [] => none
  | c :: t =>
    let skip := (findImageTag t).map fun r => { r with pre := c :: r.pre }
    if c = '!' then
      match imgCandidate t with
      | some r => some r
      | none => skip
    else skip

/-- The optional-title part of the angle-bracket branch of
`_split_inside_parens`: `(?P<rest>\s+(?:"[^"]*"|'[^']*'))?\s*$`, returning
the `rest` group (or `[]`) on match. -/
def parseAngleTitle (r : Text) : Option Text :=
  let wsRun := r.takeWhile isWs
  let r2 := r.dropWhile isWs
  match r2 with
  | [] => some []
  | q :: u =>
    if q = '"' ∨ q = '\'' then
      if wsRun = [] then none
      else
        match splitAtChar q u with
        | some (content, v) =>
          if v.all isWs then some (wsRun ++ q :: content ++ [q]) else none
        | none => none
    else none

/-- The angle-bracket branch of `_split_inside_parens`:
`^(<[^>]+>)(?P<rest>\s+(?:"[^"]*"|'[^']*'))?\s*$`. -/
def tryAngleSplit (s : Text) : Option (Text × Text) :=
  match s with
  | '<' :: u =>
    match splitAtChar '>' u with
    | some (content, r) =>
      if content = [] then none
      else
        match parseAngleTitle r with
        | some rest => some ('<' :: content ++ ['>'], rest)
        | none => none
    | none => none
  | _ => none

/-- The bare-target scanner of `_split_inside_parens`: balanced-paren walk
that stops before a quoted title; unmatched `)` at depth 0 is kept as a
target character (permissive, as the source comments). -/
def bareSplit : Text → Nat → Text × Text
  | [], _ => ([], [])
  | c :: t, depth =>
    if c = '(' then
      let p := bareSplit t (depth + 1); (c :: p.1, p.2)
    else if c = ')' then
      if depth = 0 then
        let p := bareSplit t 0; (c :: p.1, p.2)
      else
        let p := bareSplit t (depth - 1); (c :: p.1, p.2)
    else if depth = 0 ∧ isWs c then
      let rest := (c :: t).dropWhile isWs
      match rest with
      | q :: _ =>
        if q = '"' ∨ q = '\'' then ([], ' ' :: rest)
        else let p := bareSplit t depth; (c :: p.1, p.2)
      | [] => let p := bareSplit t depth; (c :: p.1, p.2)
    else
      let p := bareSplit t depth; (c :: p.1, p.2)

/-- `_split_inside_parens`. -/
def splitInsideParens (inside : Text) : Text × Text :=
  let s := strip inside
  if s = [] then ([], [])
  else
    match tryAngleSplit s with
    | some p => p
    | none =>
      let p := bareSplit s 0
      (rstrip p.1, p.2)

/-- `_strip_angle_brackets`. -/
def stripAngle (s : Text) : Text :=
  if isPre "<".data s ∧ isPre ">".data s.reverse then (s.drop 1).dropLast else s

/-- The conversion loop of `_convert_images_in_text` over the protected
text: for each well-formed image, rewrite its target to the resolved
absolute path when that target is relative, not URL-like, and resolves to
an existing file; otherwise emit the original slice verbatim. -/
def convertLoop (fsExists : Comps → Bool) (fileDir : Comps) :
    Nat → Text → Text × Nat
  | 0, s => (s, 0)
  | fuel + 1, s =>
    match findImageTag s with
    | none => (s, 0)
    | some tag =>
      let tail := convertLoop fsExists fileDir fuel tag.rest
      let orig := "![".data ++ tag.alt ++ "](".data ++ tag.inside ++ ")".data
      let sp := splitInsideParens tag.inside
      let rawTarget := sp.1
      let titlePart := sp.2
      if rawTarget = [] then
        (tag.pre ++ orig ++ tail.1, tail.2)
      else
        let target := strip (stripAngle rawTarget)
        if isUrlLike target ∨ isAbsPath target then
          (tag.pre ++ orig ++ tail.1, tail.2)
        else
          let absCand := resolveRel fileDir target
          if fsExists absCand then
            (tag.pre ++ "![".data ++ tag.alt ++ "](".data ++ renderAbs absCand ++
              titlePart ++ ")".data ++ tail.1, tail.2 + 1)
          else
            (tag.pre ++ orig ++ tail.1, tail.2)

/-- `_convert_images_in_text`: protect code segments, convert image
targets, restore segments; returns the new text and the number of
converted references. -/
def convertImagesInText (fsExists : Comps → Bool) (fileDir : Comps)
    (mdText : Text) : Text × Nat :=
  let prot := protectSegments mdText
  let conv := convertLoop fsExists fileDir (prot.1.length + 1) prot.1
  (restoreSegments conv.1 prot.2, conv.2)

/-! ## `scripts/convert_to_relative.py`

`ASSETS_DIR` and the file's directory are module-level values in the
source (monkeypatched in the repository's tests); here they are explicit
parameters, already in resolved component form. -/

/-- `_strip_angles`: returns the stripped text and whether angles were
present. -/
def stripAnglesPair (s : Text) : Text × Bool :=
  if isPre "<".data s ∧ isPre ">".data s.reverse then ((s.drop 1).dropLast, true)
  else (s, false)

/-- `_is_url_or_anchor`: empty, `#...`, or a scheme prefix (`SCHEME_RE`,
which unlike `URLISH_RE` has no `//` alternative). -/
def isUrlOrAnchor (t : Text) : Bool :=
  t = [] || isPre "#".data t ||
    (match t with
     | c :: rest => isAlphaCh c && schemeRest rest
     | [] => false)

/-- `_inside_assets`: `abs_path.resolve().relative_to(ASSETS_DIR.resolve())`
succeeds iff the resolved assets components are a prefix of the resolved
path components. -/
def insideAssets (assets : Comps) (target : Text) : Bool :=
  assets.isPrefixOf (resolveAbsStr target)

/-- `convert_target_to_relative`. -/
def convert_target_to_relative (assets fileDir : Comps) (rawTarget : Text) : Text :=
  let sp := stripAnglesPair (strip rawTarget)
  let target := sp.1
  let hadAngles := sp.2
  if isUrlOrAnchor target || !isAbsPath target then rawTarget
  else if !insideAssets assets target then rawTarget
  else
    let rel := relpathComps (resolveAbsStr target) fileDir
    if hadAngles then '<' :: rel ++ ['>'] else rel

/-- One attempt at the title-plus-closing-paren tail of `MD_LINK_RE`:
`(?P<title>\s+["'][^)]*["']\s*)?\)`.  Returns the title group (possibly
empty) and the text after the `)`.  The optional group is greedy: a
present title is preferred; its `[^)]*` is greedy, so the closing quote is
the last quote character (of either kind, as in the source pattern)
followed only by whitespace before the `)`. -/
def tryTitleParen (r : Text) : Option (Text × Text) :=
  let wsRun := r.takeWhile isWs
  let r2 := r.dropWhile isWs
  let titleAttempt : Option (Text × Text) :=
    if wsRun = [] then none
    else
      match r2 with
      | q :: u =>
        if q = '"' ∨ q = '\'' then
          let m := u.takeWhile (fun c => c ≠ ')')
          let after := u.drop m.length
          match after with
          | ')' :: rest =>
            let ok := (List.range m.length).filter fun c =>
              (m.get? c = some '"' ∨ m.get? c = some '\'') ∧ (m.drop (c + 1)).all isWs
            match ok.max? with
            | some _ => some (wsRun ++ q :: m, rest)
            | none => none
          | _ => none
        else none
      | [] => none
  match titleAttempt with
  | some p => some p
  | none =>
    match r with
    | ')' :: rest => some ([], rest)
    | _ => none

/-- The lazy bare-target alternative `[^)]+?` of `MD_LINK_RE`: grow the
target one character at a time (never across `)`), taking the first length
at which the title-plus-paren tail matches. -/
def bareLazy (acc : Text) : Text → Option (Text × Text × Text)
  | [] =>
    match tryTitleParen [] with
    | some (title, rest) => some (acc, title, rest)
    | none => none
  | rem@(c :: r) =>
    match tryTitleParen rem with
    | some (title, rest) => some (acc, title, rest)
    | none => if c = ')' then none else bareLazy (acc ++ [c]) r

/-- The angle alternative `<[^>]*>` of the target group of `MD_LINK_RE`. -/
def tryAngleTarget : Text → Option (Text × Text × Text)
  | '<' :: u =>
    match splitAtChar '>' u with
    | some (content, r2) =>
      match tryTitleParen r2 with
      | some (title, rest) => some ('<' :: content ++ ['>'], title, rest)
      | none => none
    | none => none
  | _ => none

/-- The target alternatives of `MD_LINK_RE` at a fixed gap position: the
angle form `<[^>]*>` first, then the lazy bare form. -/
def tryTargetAt (rem : Text) : Option (Text × Text × Text) :=
  match tryAngleTarget rem with
  | some p => some p
  | none =>
    match rem with
    | c :: r => if c = ')' then none else bareLazy [c] r
    | [] => none

/-- The greedy `\s*` gap between `](` and the target: try the longest gap
first, moving characters back into target position on failure (`gapRev` is
the reversed current gap). -/
def gapLoop (gapRev : Text) (rem : Text) : Option (Text × Text × Text) :=
  match tryTargetAt rem with
  | some p => some p
  | none =>
    match gapRev with
    | [] => none
    | c :: g => gapLoop g (c :: rem)

/-- A successful `MD_LINK_RE` match at the current position. -/
structure MdMatch where
  pGroup : Text  -- the prefix group `!?[...](`
  target : Text  -- the target group, angles included when present
  title : Text   -- the title group, `[]` when absent
  rest : Text    -- text after the closing `)`
deriving Repr, DecidableEq

/-- Try `MD_LINK_RE` at the start of `s`.  Note the `\s*` between the
prefix group and the target group belongs to no group, so a match whose
gap is nonempty loses that whitespace under `md_repl`. -/
def tryMdMatch (s : Text) : Option MdMatch :=
  let core : Text → Text → Option MdMatch := fun bang afterBracket =>
    match splitAtChar ']' afterBracket with
    | some (alt, v) =>
      match v with
      | '(' :: w =>
        let wsRun := w.takeWhile isWs
        let rem := w.dropWhile isWs
        match gapLoop wsRun.reverse rem with
        | some (target, title, rest) =>
          some ⟨bang ++ '[' :: alt ++ "](".data, target, title, rest⟩
        | none => none
      | _ => none
    | none => none
  match s with
  | '!' :: '[' :: u => core ['!'] u
  | '[' :: u => core [] u
  | _ => none

/-- `MD_LINK_RE.sub(md_repl, text)`: leftmost scan; each match is replaced
by `prefix + converted-target + title + ")"`. -/
def mdSubLoop (assets fileDir : Comps) : Nat → Text → Text
  | 0, s => s
  | _, [] => []
  | fuel + 1, s@(c :: t) =>
    match tryMdMatch s with
    | some m =>
      m.pGroup ++ convert_target_to_relative assets fileDir m.target ++ m.title ++
        ')' :: mdSubLoop assets fileDir fuel m.rest
    | none => c :: mdSubLoop assets fileDir fuel t

/-- Word character for the `\b` assertions of the HTML regexes. -/
def isWordCh (c : Char) : Bool :=
  isAlphaCh c ∨ ('0' ≤ c ∧ c ≤ '9') ∨ c = '_'

/-- Case-insensitive text match (`re.IGNORECASE`); `pat` is given in
lowercase. -/
def isPreCI : Text → Text → Bool
  | [], _ => true
  | _ :: _, [] => false
  | p :: ps, c :: cs => p = c.toLower && isPreCI ps cs

/-- A successful HTML attribute match (`IMG_SRC_RE` / `A_HREF_RE`). -/
structure HtmlMatch where
  g1 : Text     -- group 1: from `<` through `src=`/`href=`
  quote : Char  -- group 2
  value : Text  -- group 3
  rest : Text   -- text after the closing quote
deriving Repr, DecidableEq

/-- The lazy `[^>]*?\b<attr>` scan plus quoted value: grow the gap one
non-`>` character at a time; at each boundary position where the previous
character is not a word character, try `<attr>` then a quoted value
`(["'])([^"\']+)\2`. -/
def attrScan (attr : Text) (prev : Char) (g1 : Text) : Text → Option HtmlMatch
  | [] => none
  | s@(c :: t) =>
    let hit : Option HtmlMatch :=
      if ¬ isWordCh prev ∧ isPreCI attr s then
        let afterAttr := s.drop attr.length
        match afterAttr with
        | q :: u =>
          if q = '"' ∨ q = '\'' then
            let v := u.takeWhile fun d => d ≠ '"' ∧ d ≠ '\''
            if v = [] then none
            else
              match u.drop v.length with
              | q2 :: rest => if q2 = q then some ⟨g1 ++ s.take attr.length, q, v, rest⟩ else none
              | [] => none
          else none
        | [] => none
      else none
    match hit with
    | some m => some m
    | none => if c = '>' then none else attrScan attr c (g1 ++ [c]) t

/-- Try `IMG_SRC_RE`-style match at the start of `s` (`word` = tag name in
lowercase, `attr` = attribute with `=`). -/
def tryHtmlMatch (word attr : Text) (s : Text) : Option HtmlMatch :=
  match s with
  | '<' :: u =>
    if isPreCI word u then
      let afterWord := u.drop word.length
      let boundaryOk := match afterWord with
        | [] => true
        | d :: _ => ¬ isWordCh d
      if boundaryOk then
        attrScan attr 'g' ('<' :: u.take word.length) afterWord
      else none
    else none
  | _ => none

/-- `IMG_SRC_RE.sub` / `A_HREF_RE.sub` with `html_repl`: replacement is
`group1 + quote + converted-value + quote`. -/
def htmlSubLoop (assets fileDir : Comps) (word attr : Text) : Nat → Text → Text
  | 0, s => s
  | _, [] => []
  | fuel + 1, s@(c :: t) =>
    match tryHtmlMatch word attr s with
    | some m =>
      m.g1 ++ m.quote :: convert_target_to_relative assets fileDir m.value ++
        m.quote :: htmlSubLoop assets fileDir word attr fuel m.rest
    | none => c :: htmlSubLoop assets fileDir word attr fuel t

/-- `convert_paths_in_text`: Markdown links/images first, then HTML `img
src`, then HTML `a href`. -/
def convert_paths_in_text (assets fileDir : Comps) (text : Text) : Text :=
  let t1 := mdSubLoop assets fileDir (text.length + 1) text
  let t2 := htmlSubLoop assets fileDir "img".data "src=".data (t1.length + 1) t1
  htmlSubLoop assets fileDir "a".data "href=".data (t2.length + 1) t2

/-! ## `scripts/normalize_toc_links.py` -/

/-- The `\.(?:md|gfm|markdown)(#[^)]+)` tail of the `strip_to_anchors`
pattern, applied to the text after the `.`; returns the anchor group.
Alternatives are tried in source order. -/
def tryExtAnchor (r : Text) : Option Text :=
  let tryOne : Text → Option Text := fun ext =>
    if isPre ext r then
      match r.drop ext.length with
      | '#' :: x => if x = [] then none else some ('#' :: x)
      | _ => none
    else none
  ((tryOne "md".data).orElse fun _ =>
    (tryOne "gfm".data).orElse fun _ => tryOne "markdown".data)

/-- The `\.(?:md|gfm|markdown)(#[^)]+)` part applies only when the rest
starts with a dot. -/
def dotSplit : Text → Option Text
  | '.' :: r => tryExtAnchor r
  | _ => none

/-- Greedy `[^)\s]+` part: try the longest prefix `A` (reversed in
`preRev`) such that `A` is nonempty and whitespace-free and the rest is
`.<ext>#<anchor>`. -/
def aLoop : Text → Text → Option Text
  | [], _ => none
  | (c : Char) :: g, post =>
    let hit : Option Text :=
      if (c :: g).all (fun d => ¬ isWs d) then dotSplit post else none
    match hit with
    | some anchor => some anchor
    | none => aLoop g (c :: post)

/-- Try the `strip_to_anchors` pattern
`\((?:[^)\s]+)\.(?:md|gfm|markdown)(#[^)]+)\)` at the start of `s`.  No
matched part may contain `)`, so the closing parenthesis is the first `)`
after the `(`. -/
def tryStripMatch (s : Text) : Option (Text × Text) :=
  match s with
  | '(' :: rest =>
    match splitAtChar ')' rest with
    | some (content, after) =>
      match aLoop content.reverse [] with
      | some anchor => some (anchor, after)
      | none => none
    | none => none
  | _ => none

/-- The `pattern.sub(r"(\1)", text)` scan of `strip_to_anchors`. -/
def stripToAnchorsLoop : Nat → Text → Text
  | 0, s => s
  | _, [] => []
  | fuel + 1, s@(c :: t) =>
    match tryStripMatch s with
    | some (anchor, rest) => '(' :: anchor ++ ')' :: stripToAnchorsLoop fuel rest
    | none => c :: stripToAnchorsLoop fuel t

/-- `strip_to_anchors`. -/
def strip_to_anchors (text : Text) : Text :=
  stripToAnchorsLoop (text.length + 1) text

/-! ## `exporter/pandoc_cmd.py` -/

/-- The `FORMATS` dict. -/
def FORMATS : List (String × String) :=
  [("markdown", "gfm"), ("pdf", "pdf"), ("epub", "epub"), ("docx", "docx")]

/-- Python `fmt in FORMATS`. -/
def formatsMember (fmt : String) : Bool :=
  FORMATS.any fun p => p.1 = fmt

/-- `FORMATS[fmt]`, `none` modelling an uncaught `KeyError`. -/
def formatsLookup (fmt : String) : Option String :=
  (FORMATS.find? fun p => p.1 = fmt).map Prod.snd

/-- `resolve_ext`: the custom markdown extension wins only for `markdown`
and only when truthy (a nonempty string); otherwise `FORMATS[fmt]`, whose
failure is a `KeyError`. -/
def resolve_ext (fmt : String) (customMdExt : Option String) : Option String :=
  match customMdExt with
  | some e => if fmt = "markdown" ∧ e ≠ "" then some e else formatsLookup fmt
  | none => formatsLookup fmt

/-- Filesystem view used by `collect_md_files`: directory/file membership
plus directory listing (child names, in arbitrary on-disk order). -/
structure DirFs where
  isDir : Comps → Bool
  isFile : Comps → Bool
  children : Comps → List Text

/-- `pathlib`'s `suffix` of a file name: from the last dot, unless the dot
is the first character or absent. -/
def nameSuffix (name : Text) : Text :=
  let i := name.length - 1 - ((name.reverse.findIdx? fun c => c = '.').getD name.length)
  if (name.reverse.findIdx? fun c => c = '.') = none then []
  else if i = 0 then []
  else name.drop i

/-- Render a path for Python's `sorted` over `Path` objects, which
compares the path strings. -/
def renderPath (p : Comps) : Text :=
  (p.intersperse "/".data).flatten

/-- String order on rendered paths (code-point lexicographic, as Python
compares strings). -/
def pathLe (a b : Comps) : Prop :=
  String.mk (renderPath a) ≤ String.mk (renderPath b)

instance : DecidableRel pathLe := fun a b => by unfold pathLe; infer_instance

/-- `collect_md_files`: for each section entry in manifest order, a
directory expands to its sorted `.md` children, a file contributes itself,
anything else is dropped. -/
def collect_md_files (fs : DirFs) (bookDir : Comps) (sectionOrder : List Text) :
    List Comps :=
  sectionOrder.foldl
    (fun out sec =>
      let p := bookDir ++ splitPath sec
      if fs.isDir p then
        out ++ ((fs.children p).filter (fun x => nameSuffix x = ".md".data)
          |>.map (fun x => p ++ [x])).insertionSort pathLe
      else if fs.isFile p then out ++ [p]
      else out)
    []

/-- Modelled from the spec (section 4.4): the SectionOrder expansion
described there — manifest order between entries, each directory entry
replaced by its `.md` children in lexicographic order of their paths, each
file entry by itself.  Used as the specification side of the refinement
claim about `collect_md_files`. -/
def specCollectMdFiles (fs : DirFs) (bookDir : Comps) (sectionOrder : List Text) :
    List Comps :=
  sectionOrder.flatMap fun sec =>
    let p := bookDir ++ splitPath sec
    if fs.isDir p then
      ((fs.children p).map (fun x => p ++ [x])
        |>.filter fun q => nameSuffix (q.getLastD []) = ".md".data).insertionSort pathLe
    else if fs.isFile p then [p]
    else []

/-! ## `exporter/fsops.py` -/

/-- The two directory slots touched by `prepare_output_folder`; `none`
means the directory does not exist, `some l` its entries. -/
structure OutState where
  output : Option (List Text)
  backup : Option (List Text)
deriving Repr, DecidableEq

/-- Step 1: `if backup_dir.exists(): shutil.rmtree(backup_dir)`. -/
def rotStep1 (s : OutState) : OutState :=
  if s.backup.isSome then { s with backup := none } else s

/-- Step 2: `if output_dir.exists() and any(output_dir.iterdir()):
shutil.move(output_dir, backup_dir)`. -/
def rotStep2 (s : OutState) : OutState :=
  match s.output with
  | some entries => if entries ≠ [] then { output := none, backup := some entries } else s
  | none => s

/-- Step 3: `output_dir.mkdir(parents=True, exist_ok=True)`. -/
def rotStep3 (s : OutState) : OutState :=
  match s.output with
  | some _ => s
  | none => { s with output := some [] }

/-- `prepare_output_folder`. -/
def prepare_output_folder (s : OutState) : OutState :=
  rotStep3 (rotStep2 (rotStep1 s))

/-! ## `exporter/metadata.py` and the `build_all` metadata lifecycle -/

/-- The `DEFAULT_METADATA` placeholder YAML written to a temporary
metadata file. -/
def DEFAULT_METADATA : String :=
  "title: 'CHANGE TO YOUR TITLE'\nauthor: 'YOUR NAME'\ndate: '2025'\nlang: 'en'\n"

/-- A flat file store: path names to contents. -/
abbrev FileFs := List (String × String)

/-- File lookup (existence and content). -/
def fsLookup (fs : FileFs) (p : String) : Option String :=
  (fs.find? fun q => q.1 = p).map Prod.snd

/-- `Path.unlink(missing_ok=True)`. -/
def fsUnlink (fs : FileFs) (p : String) : FileFs :=
  fs.filter fun q => q.1 ≠ p

/-- `get_or_create_metadata_file`: the existing file, or a fresh temporary
file with the placeholder content plus the `True` temporary flag.
`tmpName` stands for the name `tempfile.NamedTemporaryFile` picks. -/
def get_or_create_metadata_file (fs : FileFs) (preferred tmpName : String) :
    FileFs × String × Bool :=
  if (fsLookup fs preferred).isSome then (fs, preferred, false)
  else ((tmpName, DEFAULT_METADATA) :: fs, tmpName, true)

/-- The metadata lifecycle of `build_all`: resolve the metadata file, run
the `try` body (abstracted as a state transformer that may raise), then in
`finally` delete the file when it was temporary.  Returns the body's
outcome and the final file store. -/
def buildAllMetadataLifecycle (fs : FileFs) (preferred tmpName : String)
    (body : String → FileFs → Except String FileFs × FileFs) :
    Except String Unit × FileFs :=
  let g := get_or_create_metadata_file fs preferred tmpName
  let metaFile := g.2.1
  let isTemp := g.2.2
  let run := body metaFile g.1
  let fsAfter := run.2
  let finalFs := if isTemp then fsUnlink fsAfter metaFile else fsAfter
  ((run.1.map fun _ => ()), finalFs)

/-! ## `exporter/pipeline.py` format loop and `exporter/validators.py` -/

/-- The format dispatch of `build_all` (lines 82-93): known formats are
built via `build_one`, unknown ones only produce a skip warning.  The
returned lists record, in order, the formats built and the warnings
printed. -/
def buildFormatsPhase (selected : List String) : List String × List String :=
  (selected.filter formatsMember,
   (selected.filter fun fmt => ¬ formatsMember fmt).map
     fun fmt => "Skipping unknown format: " ++ fmt)

/-- `schedule_validations`: for every selected format (unknown ones
included) it calls `resolve_ext(fmt, None)`; a missing `FORMATS` key is an
uncaught `KeyError`, modelled as `Except.error fmt` (the loop stops at the
first unknown format, as the exception aborts it). -/
def schedule_validations : List String → Except String (List String)
  | [] => Except.ok []
  | fmt :: rest =>
    match resolve_ext fmt none with
    | some ext => (schedule_validations rest).map fun exts => ext :: exts
    | none => Except.error fmt

/-- The post-build tail of `build_all` relevant to format handling: run
the build loop over the selected formats, then schedule validations.  The
first component records the completed builds (all of them — the build
loop never raises on an unknown format), the second the validation
scheduling outcome. -/
def buildAllFormatsRun (selected : List String) :
    (List String × List String) × Except String (List String) :=
  (buildFormatsPhase selected, schedule_validations selected)

/-! ## Concrete scenario data used by the claim theorems -/

/-- A no-file filesystem. -/
def fsNone : Comps → Bool := fun _ => false

/-- The assets directory of the concrete scenarios (`PROJECT_ROOT/assets`). -/
def exAssets : Comps := ["assets".data]

/-- The manuscript chapter directory of the concrete scenarios. -/
def exDir : Comps := ["manuscript".data, "chapters".data]

/-- A filesystem with the single asset `/assets/x.png`. -/
def fsX : Comps → Bool := fun p => p = ["assets".data, "x.png".data]

/-! ## Structured manuscript texts

The universal statements below quantify over structured texts: alternating
plain prose chunks and well-formed image references.  The cleanliness
predicates rule out exactly the characters that change how the scanners
and regexes group the text (code delimiters, brackets, quotes, whitespace
inside targets), so that the transforms act reference-by-reference. -/

/-- One image reference `![alt](target)`. -/
structure FamRef where
  alt : Text
  target : Text
deriving Repr, DecidableEq

/-- Render an image reference. -/
def renderRef (r : FamRef) : Text :=
  "![".data ++ r.alt ++ "](".data ++ r.target ++ ")".data

/-- Render a structured text: chunks alternating with references, plus a
trailing chunk. -/
def renderPairs : List (Text × FamRef) → Text → Text
  | [], tailChunk => tailChunk
  | (c, r) :: rest, tailChunk => c ++ renderRef r ++ renderPairs rest tailChunk

/-- Scan-fuel accounting for a structured text: each chunk character costs
one step and each reference costs one step. -/
def famFuel : List (Text × FamRef) → Nat
  | [] => 0
  | (c, _) :: rest => c.length + 1 + famFuel rest

/-- Characters allowed in a reference target: no whitespace, code
delimiters, angle brackets, parentheses or quotes. -/
def cleanTargetCh (c : Char) : Bool :=
  ¬ isWs c ∧ c ≠ btick ∧ c ≠ '<' ∧ c ≠ '>' ∧ c ≠ '(' ∧ c ≠ ')' ∧ c ≠ '"' ∧ c ≠ '\''

/-- A plain prose chunk: free of backticks, opening brackets and `<`. -/
def goodChunk (c : Text) : Bool :=
  c.all fun d => d ≠ btick ∧ d ≠ '[' ∧ d ≠ '<'

/-- A well-behaved alt text. -/
def goodAlt (a : Text) : Bool :=
  a.all fun d => d ≠ btick ∧ d ≠ '[' ∧ d ≠ ']' ∧ d ≠ '<'

/-- A well-behaved target. -/
def goodTarget (t : Text) : Bool :=
  t ≠ [] ∧ t.all cleanTargetCh

/-- A well-behaved chunk/reference pair. -/
def goodPair (p : Text × FamRef) : Bool :=
  goodChunk p.1 ∧ goodAlt p.2.alt ∧ goodTarget p.2.target

/-- All pairs well-behaved. -/
def goodPairs (ps : List (Text × FamRef)) : Bool := ps.all goodPair

/-- The per-reference action of `_convert_images_in_text` on a
well-behaved reference: skip URL-like and absolute targets, rewrite
relative targets that resolve to an existing file. -/
def absRefStep (fsE : Comps → Bool) (dir : Comps) (r : FamRef) : FamRef :=
  if isUrlLike r.target ∨ isAbsPath r.target then r
  else if fsE (resolveRel dir r.target) then
    ⟨r.alt, renderAbs (resolveRel dir r.target)⟩
  else r

/-- The count contribution of one reference in `_convert_images_in_text`. -/
def absRefCount (fsE : Comps → Bool) (dir : Comps) (r : FamRef) : Nat :=
  if isUrlLike r.target ∨ isAbsPath r.target then 0
  else if fsE (resolveRel dir r.target) then 1 else 0

/-- Map the absolute-conversion step over a structured text. -/
def absPairsMap (fsE : Comps → Bool) (dir : Comps)
    (ps : List (Text × FamRef)) : List (Text × FamRef) :=
  ps.map fun p => (p.1, absRefStep fsE dir p.2)

/-- Total converted count over a structured text. -/
def absPairsCount (fsE : Comps → Bool) (dir : Comps)
    (ps : List (Text × FamRef)) : Nat :=
  (ps.map fun p => absRefCount fsE dir p.2).sum

/-- The per-reference action of `convert_paths_in_text` on a well-behaved
reference (only the target is rewritten, by `convert_target_to_relative`). -/
def relRefStep (assets dir : Comps) (r : FamRef) : FamRef :=
  ⟨r.alt, convert_target_to_relative assets dir r.target⟩

/-- Map the relative-conversion step over a structured text. -/
def relPairsMap (assets dir : Comps) (ps : List (Text × FamRef)) :
    List (Text × FamRef) :=
  ps.map fun p => (p.1, relRefStep assets dir p.2)

/-- Path components that render and reparse cleanly: nonempty, not `.` or
`..`, free of `/` and of the characters excluded from targets. -/
def cleanComp (c : Text) : Bool :=
  c ≠ [] ∧ c ≠ ".".data ∧ c ≠ "..".data ∧ c.all fun d => cleanTargetCh d ∧ d ≠ '/'

/-- All components clean. -/
def cleanComps (p : Comps) : Bool := p.all cleanComp

/-- Canonical-family data for the round-trip claim: a chunk, an alt text
and the resolved components of the referenced asset; the reference target
is the canonical relative path `relpathComps p dir`. -/
def canonPair (dir : Comps) (c : Text × Text × Comps) : Text × FamRef :=
  (c.1, ⟨c.2.1, relpathComps c.2.2 dir⟩)

/-- Absolute-form family data: the reference target is the rendered
absolute path. -/
def absFormPair (c : Text × Text × Comps) : Text × FamRef :=
  (c.1, ⟨c.2.1, renderAbs c.2.2⟩)

/-- Conditions on one canonical-family entry `(chunk, alt, p)` for the
round-trip claim: well-behaved chunk and alt, clean existing components
under the assets directory, and a canonical target the absolute pass does
not mistake for a URL. -/
def goodCanonEntry (assets dir : Comps) (fsE : Comps → Bool)
    (c : Text × Text × Comps) : Bool :=
  goodChunk c.1 ∧ goodAlt c.2.1 ∧ cleanComps c.2.2 ∧
    assets.isPrefixOf c.2.2 ∧ fsE c.2.2 ∧
    isUrlLike (relpathComps c.2.2 dir) = false

/-! ## Structured TOC texts for `strip_to_anchors` -/

/-- A structured TOC item: plain prose (free of parentheses), a link
`(path.ext#anchor)`, or a pure anchor link `(#anchor)`. -/
inductive TocItem where
  | chunk (c : Text)
  | link (path ext anchor : Text)
  | anchorOnly (anchor : Text)
deriving Repr, DecidableEq

/-- Render a TOC item. -/
def renderTocItem : TocItem → Text
  | .chunk c => c
  | .link path ext anchor =>
    '(' :: path ++ '.' :: ext ++ '#' :: anchor ++ [')']
  | .anchorOnly anchor => '(' :: '#' :: anchor ++ [')']

/-- Render a structured TOC text. -/
def renderToc (items : List TocItem) : Text :=
  (items.map renderTocItem).flatten

/-- Well-behavedness of a TOC item: chunks contain no parentheses; link
paths are nonempty, whitespace- and parenthesis-free; extensions are one
of `md`/`gfm`/`markdown`; anchors are nonempty, parenthesis- and dot-free. -/
def goodTocItem : TocItem → Bool
  | .chunk c => c.all fun d => d ≠ '(' ∧ d ≠ ')'
  | .link path ext anchor =>
    (path ≠ [] ∧ path.all fun d => ¬ isWs d ∧ d ≠ '(' ∧ d ≠ ')') &&
    (ext = "md".data ∨ ext = "gfm".data ∨ ext = "markdown".data) &&
    (anchor ≠ [] ∧ anchor.all fun d => d ≠ '(' ∧ d ≠ ')' ∧ d ≠ '.')
  | .anchorOnly anchor =>
    anchor ≠ [] ∧ anchor.all fun d => d ≠ '(' ∧ d ≠ ')' ∧ d ≠ '.'

/-- All TOC items well-behaved. -/
def goodTocItems (items : List TocItem) : Bool := items.all goodTocItem

/-- The action of `strip_to_anchors` on a structured TOC item. -/
def tocStep : TocItem → TocItem
  | .chunk c => .chunk c
  | .link _ _ anchor => .anchorOnly anchor
  | .anchorOnly anchor => .anchorOnly anchor

/-! ## Order instances for `collect_md_files` -/

instance : IsTotal Comps pathLe :=
  ⟨fun a b => le_total (String.mk (renderPath a)) (String.mk (renderPath b))⟩

instance : IsTrans Comps pathLe :=
  ⟨fun _ _ _ h₁ h₂ => le_trans h₁ h₂⟩

/-- Two filesystem views that agree on directory/file status and list the
same children up to on-disk iteration order. -/
def fsAgreeUpToOrder (fs₁ fs₂ : DirFs) : Prop :=
  (∀ p, fs₁.isDir p = fs₂.isDir p) ∧ (∀ p, fs₁.isFile p = fs₂.isFile p) ∧
    (∀ p, (fs₁.children p).Perm (fs₂.children p))

/-- Counterexample text for the round-trip claim: an angle-bracketed
canonical relative target. -/
def ce1text : Text := "![a](<../../assets/x.png>)".data

/-- Counterexample text for code-fence immunity in the
absolute-to-relative direction: an image with an absolute assets target
inside a fenced code block. -/
def ce2text : Text := tick3 ++ "\n![a](/assets/x.png)\n".data ++ tick3

/-- Counterexample text for idempotence of the absolute pass: literal
occurrences of the protection placeholders next to a real fence. -/
def ce3text : Text := fenceToken 0 ++ tick3 ++ "a".data ++ tick3 ++ fenceToken 1

/-- Counterexample text for non-existent-target safety: a placeholder
collision plus a reference whose target does not resolve. -/
def ce5text : Text := fenceToken 0 ++ tick3 ++ "a".data ++ tick3 ++ "![x](missing.png)".data

/-- Counterexample text for TOC idempotence. -/
def ce4text : Text := "(x.md# (a.md#b)".data

/-- Concrete input for the non-image-link claim. -/
def c10text : Text :=
  "[doc](/assets/file.pdf) and <a href=\"/assets/x.png\">x</a> and <img src='/assets/x.png'>".data

/-- Expected output for the non-image-link claim. -/
def c10expected : Text :=
  "[doc](../../assets/file.pdf) and <a href=\"../../assets/x.png\">x</a> and <img src='../../assets/x.png'>".data

/-- Concrete book filesystem for the section-expansion witness. -/
def exDirFs1 : DirFs where
  isDir p := p = ["book".data, "chapters".data]
  isFile p := p = ["book".data, "front-matter".data, "toc.md".data]
  children p :=
    if p = ["book".data, "chapters".data] then
      ["02.md".data, "01.md".data, "notes.txt".data]
    else []

/-- The same book filesystem listed in a different on-disk order. -/
def exDirFs2 : DirFs where
  isDir p := p = ["book".data, "chapters".data]
  isFile p := p = ["book".data, "front-matter".data, "toc.md".data]
  children p :=
    if p = ["book".data, "chapters".data] then
      ["01.md".data, "notes.txt".data, "02.md".data]
    else []

/-- Concrete section order for the witness. -/
def exOrder : List Text := ["front-matter/toc.md".data, "chapters".data, "missing.md".data]


end BookExport

namespace BookExport

/-! ## Helper lemmas -/

/-- Unlinking a path removes it from the store. -/
theorem fsLookup_fsUnlink (p : String) :
    ∀ fs : FileFs, fsLookup (fsUnlink fs p) p = none := by
  intro fs
  induction fs with
  | nil => rfl
  | cons q t ih =>
    by_cases h : q.1 = p
    · rw [show fsUnlink (q :: t) p = fsUnlink t p by simp [fsUnlink, h]]
      exact ih
    · simpa [fsUnlink, fsLookup, List.find?, h] using ih

/-- A format outside `FORMATS` has no extension. -/
theorem formatsLookup_eq_none (fmt : String) (h : formatsMember fmt = false) :
    formatsLookup fmt = none := by
  simp only [formatsMember, FORMATS, List.any, Bool.or_eq_false_iff,
    decide_eq_false_iff_not] at h
  simp [formatsLookup, FORMATS, List.find?, h.1, h.2.1, h.2.2.1, h.2.2.2.1]

/-- `resolve_ext` with no custom extension fails on an unknown format. -/
theorem resolve_ext_eq_none (fmt : String) (h : formatsMember fmt = false) :
    resolve_ext fmt none = none := by
  simp [resolve_ext, formatsLookup_eq_none fmt h]

/-- `schedule_validations` raises on a selection containing an unknown
format. -/
theorem schedule_validations_error_of_unknown (selected : List String)
    (fmt : String) (hmem : fmt ∈ selected) (hunk : formatsMember fmt = false) :
    ∃ bad, schedule_validations selected = Except.error bad := by
  induction selected with
  | nil => cases hmem
  | cons a t ih =>
    rw [List.mem_cons] at hmem
    by_cases ha : formatsMember a = false
    · exact ⟨a, by simp [schedule_validations, resolve_ext_eq_none a ha]⟩
    · have hmem' : fmt ∈ t := by
        rcases hmem with rfl | hmem'
        · exact absurd hunk ha
        · exact hmem'
      obtain ⟨bad, hbad⟩ := ih hmem'
      cases hros : resolve_ext a none with
      | none => exact ⟨a, by simp [schedule_validations, hros]⟩
      | some e => exact ⟨bad, by simp [schedule_validations, hros, hbad, Except.map]⟩

/-! ## Claim C9 -/

/-- Claim C9: an unknown name in the format list is only skipped with a
warning during the build loop (all known formats are built), but
`schedule_validations` then calls `resolve_ext` on every selected format,
so the unknown one raises an uncaught `KeyError` after the builds. -/
theorem c9_unknown_format_keyerror (selected : List String) (fmt : String)
    (hmem : fmt ∈ selected) (hunk : formatsMember fmt = false) :
    (buildAllFormatsRun selected).1.1 = selected.filter formatsMember ∧
    ("Skipping unknown format: " ++ fmt) ∈ (buildAllFormatsRun selected).1.2 ∧
    ∃ bad, (buildAllFormatsRun selected).2 = Except.error bad := by
  refine ⟨rfl, ?_, schedule_validations_error_of_unknown selected fmt hmem hunk⟩
  exact List.mem_map_of_mem _ (List.mem_filter.mpr ⟨hmem, by simp [hunk]⟩)

/-- Witness for claim C9 at a concrete format list. -/
theorem c9_unknown_format_keyerror_witness :
    (buildAllFormatsRun ["pdf", "bogus"]).1.1 = ["pdf", "bogus"].filter formatsMember ∧
    ("Skipping unknown format: " ++ "bogus") ∈ (buildAllFormatsRun ["pdf", "bogus"]).1.2 ∧
    ∃ bad, (buildAllFormatsRun ["pdf", "bogus"]).2 = Except.error bad :=
  c9_unknown_format_keyerror ["pdf", "bogus"] "bogus" (by decide) (by decide)

/-! ## Claim C7 -/

/-- Claim C7: after `prepare_output_folder` the output directory exists
and is empty; the backup holds exactly the prior output content when that
content was nonempty; any pre-existing backup is deleted first (step 1);
and a missing output directory is simply created. -/
theorem c7_output_rotation (s : OutState) :
    (prepare_output_folder s).output = some [] ∧
    (prepare_output_folder s).backup =
      (match s.output with
       | some entries => if entries ≠ [] then some entries else none
       | none => none) ∧
    (rotStep1 s).backup = none ∧
    (s.output = none → prepare_output_folder s = ⟨some [], none⟩) := by
  obtain ⟨o, b⟩ := s
  cases o with
  | none =>
    cases b <;> simp [prepare_output_folder, rotStep1, rotStep2, rotStep3]
  | some entries =>
    cases b <;> by_cases h : entries = [] <;>
      simp [prepare_output_folder, rotStep1, rotStep2, rotStep3, h]

/-- Witness for claim C7 at a concrete state. -/
theorem c7_output_rotation_witness :
    (prepare_output_folder ⟨some ["a".data], some []⟩).output = some [] ∧
    (prepare_output_folder ⟨some ["a".data], some []⟩).backup =
      (match (some ["a".data] : Option (List Text)) with
       | some entries => if entries ≠ [] then some entries else none
       | none => none) ∧
    (rotStep1 ⟨some ["a".data], some []⟩).backup = none ∧
    ((some ["a".data] : Option (List Text)) = none →
      prepare_output_folder ⟨some ["a".data], some []⟩ = ⟨some [], none⟩) :=
  c7_output_rotation ⟨some ["a".data], some []⟩

/-! ## Claim C8 -/

/-- Claim C8: when the configured metadata file is missing,
`get_or_create_metadata_file` creates a temporary file with the
placeholder content and returns it with a `true` flag (and the original
path with `false` when it exists); `build_all` deletes the temporary file
in its `finally` block, so it is gone after the run whether the body
succeeds or raises. -/
theorem c8_ephemeral_metadata (fs : FileFs) (preferred tmpName : String)
    (body : String → FileFs → Except String FileFs × FileFs)
    (hmiss : fsLookup fs preferred = none) :
    (get_or_create_metadata_file fs preferred tmpName).2.2 = true ∧
    (get_or_create_metadata_file fs preferred tmpName).2.1 = tmpName ∧
    fsLookup (get_or_create_metadata_file fs preferred tmpName).1 tmpName
      = some DEFAULT_METADATA ∧
    fsLookup (buildAllMetadataLifecycle fs preferred tmpName body).2 tmpName = none ∧
    (buildAllMetadataLifecycle fs preferred tmpName body).1
      = (body tmpName ((tmpName, DEFAULT_METADATA) :: fs)).1.map (fun _ => ()) ∧
    (∀ fs' c, fsLookup fs' preferred = some c →
      get_or_create_metadata_file fs' preferred tmpName = (fs', preferred, false)) := by
  have hg : get_or_create_metadata_file fs preferred tmpName
      = ((tmpName, DEFAULT_METADATA) :: fs, tmpName, true) := by
    simp [get_or_create_metadata_file, hmiss]
  refine ⟨by simp [hg], by simp [hg], ?_, ?_, ?_, ?_⟩
  · simp [hg, fsLookup]
  · simp [buildAllMetadataLifecycle, hg, fsLookup_fsUnlink]
  · simp [buildAllMetadataLifecycle, hg]
  · intro fs' c hc
    simp [get_or_create_metadata_file, hc]

/-- Witness for claim C8 at a concrete store and body. -/
theorem c8_ephemeral_metadata_witness :
    (get_or_create_metadata_file [] "metadata.yaml" "/tmp/t.yaml").2.2 = true ∧
    (get_or_create_metadata_file [] "metadata.yaml" "/tmp/t.yaml").2.1 = "/tmp/t.yaml" ∧
    fsLookup (get_or_create_metadata_file [] "metadata.yaml" "/tmp/t.yaml").1 "/tmp/t.yaml"
      = some DEFAULT_METADATA ∧
    fsLookup (buildAllMetadataLifecycle [] "metadata.yaml" "/tmp/t.yaml"
      (fun _ fs => (Except.error "pandoc failed", fs))).2 "/tmp/t.yaml" = none ∧
    (buildAllMetadataLifecycle [] "metadata.yaml" "/tmp/t.yaml"
      (fun _ fs => (Except.error "pandoc failed", fs))).1
      = ((fun (_ : String) (fs : FileFs) => ((Except.error "pandoc failed" : Except String FileFs), fs))
          "/tmp/t.yaml" (("/tmp/t.yaml", DEFAULT_METADATA) :: [])).1.map (fun _ => ()) ∧
    (∀ fs' c, fsLookup fs' "metadata.yaml" = some c →
      get_or_create_metadata_file fs' "metadata.yaml" "/tmp/t.yaml" = (fs', "metadata.yaml", false)) :=
  c8_ephemeral_metadata [] "metadata.yaml" "/tmp/t.yaml"
    (fun _ fs => (Except.error "pandoc failed", fs)) (by decide)

/-! ## Claim C10 -/

/-- Claim C10: `convert_paths_in_text` rewrites ordinary Markdown links,
`<a href>` and `<img src>` targets that are absolute paths inside the
assets directory, even when the text contains no image reference at all. -/
theorem c10_nonimage_links_rewritten :
    convert_paths_in_text exAssets exDir c10text = c10expected ∧
    c10expected ≠ c10text ∧
    findSub "![".data c10text = none := by
  refine ⟨by decide, by decide, by decide⟩

/-! ## Claim C6 -/

/-- Folding with appends is a flat map. -/
theorem foldl_collect (fs : DirFs) (bookDir : Comps) :
    ∀ (order : List Text) (acc : List Comps),
      order.foldl (fun out sec =>
        let p := bookDir ++ splitPath sec
        if fs.isDir p then
          out ++ ((fs.children p).filter (fun x => nameSuffix x = ".md".data)
            |>.map (fun x => p ++ [x])).insertionSort pathLe
        else if fs.isFile p then out ++ [p] else out) acc
      = acc ++ order.flatMap (fun sec =>
          let p := bookDir ++ splitPath sec
          if fs.isDir p then
            ((fs.children p).filter (fun x => nameSuffix x = ".md".data)
              |>.map (fun x => p ++ [x])).insertionSort pathLe
          else if fs.isFile p then [p] else []) := by
  intro order
  induction order with
  | nil => intro acc; simp
  | cons sec rest ih =>
    intro acc
    simp only [List.foldl_cons, List.flatMap_cons, ih]
    by_cases h1 : fs.isDir (bookDir ++ splitPath sec) <;>
      by_cases h2 : fs.isFile (bookDir ++ splitPath sec) <;>
      simp [h1, h2, List.append_assoc]

/-- The last element of a one-element extension. -/
theorem getLastD_append_single (p : Comps) (x : Text) :
    (p ++ [x]).getLastD [] = x := by
  induction p with
  | nil => rfl
  | cons c t ih =>
    cases t <;> simpa using ih

/-- Filtering children by suffix then appending the directory equals
appending then filtering on the last component. -/
theorem filter_map_children (p : Comps) :
    ∀ children : List Text,
      ((children.filter fun x => nameSuffix x = ".md".data).map fun x => p ++ [x])
      = ((children.map fun x => p ++ [x]).filter
          fun q => nameSuffix (q.getLastD []) = ".md".data) := by
  intro children
  induction children with
  | nil => rfl
  | cons c t ih =>
    by_cases h : nameSuffix c = ".md".data <;>
      simp [List.filter, List.map, getLastD_append_single, h, ih]

/-- Unfold `renderPath` over a one-element extension. -/
theorem renderPath_append_single (x : Text) :
    ∀ p : Comps, renderPath (p ++ [x]) =
      (match p with
       | [] => x
       | _ :: _ => renderPath p ++ '/' :: x) := by
  intro p
  induction p with
  | nil => simp [renderPath]
  | cons c t ih =>
    cases t with
    | nil => simp [renderPath, List.intersperse]
    | cons d r =>
      simp only [List.cons_append, renderPath, List.intersperse_cons_cons,
        List.flatten_cons] at ih ⊢
      cases hr : r ++ [x] with
      | nil => exact absurd hr (by simp)
      | cons e s =>
        rw [hr] at ih
        cases r <;> simp_all [List.append_assoc]

/-- Appending distinct last components gives distinct rendered paths. -/
theorem renderPath_append_single_inj (p : Comps) (x y : Text)
    (h : renderPath (p ++ [x]) = renderPath (p ++ [y])) : x = y := by
  rw [renderPath_append_single, renderPath_append_single] at h
  cases p with
  | nil => exact h
  | cons c t => simpa using h

/-- Local antisymmetry of `pathLe` on children of one directory. -/
theorem pathLe_antisymm_on_mapped (p : Comps) (l : List Text) :
    ∀ a ∈ l.map (fun x => p ++ [x]), ∀ b ∈ l.map (fun x => p ++ [x]),
      pathLe a b → pathLe b a → a = b := by
  intro a ha b hb hab hba
  obtain ⟨x, _, rfl⟩ := List.mem_map.mp ha
  obtain ⟨y, _, rfl⟩ := List.mem_map.mp hb
  have hs : String.mk (renderPath (p ++ [x])) = String.mk (renderPath (p ++ [y])) :=
    le_antisymm hab hba
  have : renderPath (p ++ [x]) = renderPath (p ++ [y]) := by
    injection hs
  rw [renderPath_append_single_inj p x y this]

/-- Sorted permutations of a list with local antisymmetry are equal. -/
theorem eq_of_perm_of_sorted_pathLe :
    ∀ {l₁ l₂ : List Comps}, l₁.Perm l₂ → l₁.Sorted pathLe → l₂.Sorted pathLe →
      (∀ a ∈ l₁, ∀ b ∈ l₁, pathLe a b → pathLe b a → a = b) → l₁ = l₂ := by
  intro l₁
  induction l₁ with
  | nil => intro l₂ hp _ _ _; exact (hp.symm.eq_nil).symm
  | cons a t₁ ih =>
    intro l₂ hp hs₁ hs₂ hanti
    cases l₂ with
    | nil => exact absurd hp.eq_nil (by simp)
    | cons b t₂ =>
      have hb₁ : b ∈ a :: t₁ := hp.mem_iff.mpr (List.mem_cons_self b t₂)
      have ha₂ : a ∈ b :: t₂ := hp.subset (List.mem_cons_self a t₁)
      have hab : a = b := by
        by_cases h : a = b
        · exact h
        · have hbt₁ : b ∈ t₁ := by
            rcases List.mem_cons.mp hb₁ with h' | h'
            · exact absurd h'.symm h
            · exact h'
          have hat₂ : a ∈ t₂ := by
            rcases List.mem_cons.mp ha₂ with h' | h'
            · exact absurd h' h
            · exact h'
          have h₁ : pathLe a b := (List.sorted_cons.mp hs₁).1 b hbt₁
          have h₂ : pathLe b a := (List.sorted_cons.mp hs₂).1 a hat₂
          exact hanti a (List.mem_cons_self a t₁) b hb₁ h₁ h₂
      subst hab
      have htp : t₁.Perm t₂ := hp.cons_inv
      have : t₁ = t₂ :=
        ih htp (List.sorted_cons.mp hs₁).2 (List.sorted_cons.mp hs₂).2
          (fun x hx y hy => hanti x (List.mem_cons_of_mem a hx) y (List.mem_cons_of_mem a hy))
      rw [this]

/-- Insertion sort is permutation-invariant given local antisymmetry. -/
theorem insertionSort_eq_of_perm (l₁ l₂ : List Comps) (h : l₁.Perm l₂)
    (hanti : ∀ a ∈ l₁, ∀ b ∈ l₁, pathLe a b → pathLe b a → a = b) :
    l₁.insertionSort pathLe = l₂.insertionSort pathLe := by
  have hmem : ∀ x ∈ l₁.insertionSort pathLe, x ∈ l₁ :=
    fun x hx => (List.perm_insertionSort pathLe l₁).subset hx
  exact eq_of_perm_of_sorted_pathLe
    ((List.perm_insertionSort pathLe l₁).trans
      (h.trans (List.perm_insertionSort pathLe l₂).symm))
    (List.sorted_insertionSort pathLe l₁) (List.sorted_insertionSort pathLe l₂)
    (fun a ha b hb => hanti a (hmem a ha) b (hmem b hb))

/-- Claim C6: `collect_md_files` expands the manifest in manifest order —
each entry to itself when a file, to its lexicographically sorted `.md`
children when a directory — matching the specification-side expansion, and
its result does not depend on the filesystem's child-iteration order. -/
theorem c6_collect_md_files_deterministic (fs₁ fs₂ : DirFs) (bookDir : Comps)
    (order : List Text) (hagree : fsAgreeUpToOrder fs₁ fs₂) :
    collect_md_files fs₁ bookDir order = specCollectMdFiles fs₁ bookDir order ∧
    collect_md_files fs₁ bookDir order = collect_md_files fs₂ bookDir order := by
  obtain ⟨hdir, hfile, hchild⟩ := hagree
  constructor
  · unfold collect_md_files specCollectMdFiles
    rw [foldl_collect]
    simp only [List.nil_append]
    apply List.flatMap_congr  -- may need congrArg route
    intro sec _
    by_cases h1 : fs₁.isDir (bookDir ++ splitPath sec)
    · simp only [h1, if_true]
      rw [filter_map_children]
    · simp [h1]
  · unfold collect_md_files
    rw [foldl_collect, foldl_collect]
    simp only [List.nil_append]
    apply List.flatMap_congr
    intro sec _
    rw [← hdir, ← hfile]
    by_cases h1 : fs₁.isDir (bookDir ++ splitPath sec)
    · simp only [h1, if_true]
      apply insertionSort_eq_of_perm
      · exact ((hchild _).filter _).map _
      · intro a ha b hb
        exact pathLe_antisymm_on_mapped _ _ a ha b hb
    · simp [h1]

/-- Witness for claim C6 on a concrete two-ordering filesystem. -/
theorem c6_collect_md_files_deterministic_witness :
    collect_md_files exDirFs1 ["book".data] exOrder
      = specCollectMdFiles exDirFs1 ["book".data] exOrder ∧
    collect_md_files exDirFs1 ["book".data] exOrder
      = collect_md_files exDirFs2 ["book".data] exOrder :=
  c6_collect_md_files_deterministic exDirFs1 exDirFs2 ["book".data] exOrder
    ⟨fun _ => rfl, fun _ => rfl, fun p => by
      by_cases h : p = ["book".data, "chapters".data]
      · simp only [exDirFs1, exDirFs2, h, if_true]
        decide
      · simp [exDirFs1, exDirFs2, h]⟩

/-! ## Protection-layer lemmas -/

/-- A text is a prefix of itself extended. -/
theorem isPre_append_self (p x : Text) : isPre p (p ++ x) = true := by
  induction p with
  | nil => rfl
  | cons c t ih => simp [isPre, ih]

/-- A text is a prefix of itself. -/
theorem isPre_refl (p : Text) : isPre p p = true := by
  simpa using isPre_append_self p []

/-- Unfold `findAux` at a successful position. -/
theorem findAux_pos (pat : Text) (c : Char) (t : Text) (i : Nat)
    (h : isPre pat (c :: t) = true) : findAux pat (c :: t) i = some i := by
  conv_lhs => rw [findAux]
  rw [if_pos h]

/-- Unfold `findAux` at a failed position. -/
theorem findAux_neg (pat : Text) (c : Char) (t : Text) (i : Nat)
    (h : isPre pat (c :: t) = false) : findAux pat (c :: t) i = findAux pat t (i + 1) := by
  conv_lhs => rw [findAux]
  rw [if_neg (by simp [h])]

/-- A pattern starting with a backtick fails at a non-backtick head. -/
theorem isPre_tick_head_neg (rest : Text) (c : Char) (t : Text) (hc : c ≠ btick) :
    isPre (btick :: rest) (c :: t) = false := by
  simp [isPre]
  intro h
  exact absurd h.symm hc

/-- Searching for a nonempty pattern at its own occurrence. -/
theorem findSub_self_append (pat x : Text) (hp : pat ≠ []) :
    findSub pat (pat ++ x) = some 0 := by
  cases pat with
  | nil => exact absurd rfl hp
  | cons c t =>
    have h := isPre_append_self (c :: t) x
    rw [List.cons_append] at h
    unfold findSub
    rw [List.cons_append, findAux_pos _ _ _ _ h]

/-- No triple backtick occurs in a backtick-free text. -/
theorem findAux_tick3_none (b : Text) (hb : btick ∉ b) :
    ∀ i, findAux tick3 b i = none := by
  induction b with
  | nil => intro i; rfl
  | cons c t ih =>
    intro i
    have hc : c ≠ btick := fun h => hb (h ▸ List.mem_cons_self c t)
    rw [show tick3 = btick :: [btick, btick] from rfl, findAux_neg _ _ _ _ (isPre_tick_head_neg _ c t hc)]
    exact ih (fun h => hb (List.mem_cons_of_mem c h)) (i + 1)

/-- Locating the closing fence after backtick-free content. -/
theorem findAux_tick3_close (b : Text) (hb : btick ∉ b) :
    ∀ (x : Text) (i : Nat), findAux tick3 (b ++ tick3 ++ x) i = some (i + b.length) := by
  induction b with
  | nil =>
    intro x i
    have h := isPre_append_self tick3 x
    rw [show tick3 ++ x = btick :: ([btick, btick] ++ x) from rfl] at h
    simp only [List.nil_append, List.length_nil, Nat.add_zero]
    rw [show tick3 ++ x = btick :: ([btick, btick] ++ x) from rfl]
    exact findAux_pos _ _ _ i h
  | cons c t ih =>
    intro x i
    have hc : c ≠ btick := fun h => hb (h ▸ List.mem_cons_self c t)
    rw [List.cons_append, List.cons_append,
      show tick3 = btick :: [btick, btick] from rfl,
      findAux_neg _ _ _ _ (isPre_tick_head_neg _ c _ hc)]
    rw [show (btick :: [btick, btick] : Text) = tick3 from rfl,
      ih (fun h => hb (List.mem_cons_of_mem c h)) x (i + 1)]
    simp only [List.length_cons]
    congr 1
    omega

/-- No triple backtick in content followed by one closing backtick. -/
theorem findAux_tick3_single_close (b : Text) (hb : btick ∉ b) :
    ∀ i, findAux tick3 (b ++ [btick]) i = none := by
  induction b with
  | nil => intro i; rfl
  | cons c t ih =>
    intro i
    have hc : c ≠ btick := fun h => hb (h ▸ List.mem_cons_self c t)
    rw [List.cons_append, show tick3 = btick :: [btick, btick] from rfl,
      findAux_neg _ _ _ _ (isPre_tick_head_neg _ c _ hc)]
    exact ih (fun h => hb (List.mem_cons_of_mem c h)) (i + 1)

/-- No single backtick occurs in a backtick-free text. -/
theorem findAux_tick1_none (b : Text) (hb : btick ∉ b) :
    ∀ i, findAux [btick] b i = none := by
  induction b with
  | nil => intro i; rfl
  | cons c t ih =>
    intro i
    have hc : c ≠ btick := fun h => hb (h ▸ List.mem_cons_self c t)
    rw [show ([btick] : Text) = btick :: [] from rfl,
      findAux_neg _ _ _ _ (isPre_tick_head_neg _ c t hc)]
    exact ih (fun h => hb (List.mem_cons_of_mem c h)) (i + 1)

/-- Locating the closing backtick after backtick-free content. -/
theorem findAux_tick1_close (b : Text) (hb : btick ∉ b) :
    ∀ (x : Text) (i : Nat), findAux [btick] (b ++ btick :: x) i = some (i + b.length) := by
  induction b with
  | nil =>
    intro x i
    simp only [List.nil_append, List.length_nil, Nat.add_zero]
    exact findAux_pos _ _ _ i (by simp [isPre])
  | cons c t ih =>
    intro x i
    have hc : c ≠ btick := fun h => hb (h ▸ List.mem_cons_self c t)
    rw [List.cons_append, show ([btick] : Text) = btick :: [] from rfl,
      findAux_neg _ _ _ _ (isPre_tick_head_neg _ c _ hc)]
    rw [ih (fun h => hb (List.mem_cons_of_mem c h)) x (i + 1)]
    simp only [List.length_cons]
    congr 1
    omega

/-- The fence pass leaves a backtick-free text unchanged. -/
theorem protectFenceLoop_id (s : Text) (hs : btick ∉ s) (fuel idx : Nat) :
    protectFenceLoop fuel idx s = (s, [], idx) := by
  cases fuel with
  | zero => rfl
  | succ n => simp [protectFenceLoop, findSub, findAux_tick3_none s hs 0]

/-- The inline pass leaves a backtick-free text unchanged. -/
theorem protectInlineLoop_id (s : Text) (hs : btick ∉ s) (fuel idx : Nat) :
    protectInlineLoop fuel idx s = (s, [], idx) := by
  cases fuel with
  | zero => rfl
  | succ n => simp [protectInlineLoop, findSub, findAux_tick1_none s hs 0]

/-- Protection is the identity on backtick-free texts. -/
theorem protectSegments_id (s : Text) (hs : btick ∉ s) :
    protectSegments s = (s, []) := by
  simp [protectSegments, protectFenceLoop_id s hs, protectInlineLoop_id s hs]

/-- `replaceAll` on the empty text. -/
theorem replaceAll_nil (pat repl : Text) : ∀ fuel, replaceAll fuel pat repl [] = [] := by
  intro fuel; cases fuel <;> rfl

/-- Replacing a text equal to the pattern yields the replacement. -/
theorem pyReplace_whole (pat repl : Text) (hp : pat ≠ []) :
    pyReplace pat pat repl = repl := by
  cases pat with
  | nil => exact absurd rfl hp
  | cons c t =>
    simp only [pyReplace, replaceAll, isPre_refl, List.length_cons, if_true]
    simp [List.drop_length, replaceAll_nil]

/-- The conversion loop is the identity when no image tag is found. -/
theorem convertLoop_none (fsE : Comps → Bool) (dir : Comps) (fuel : Nat) (s : Text)
    (h : findImageTag s = none) : convertLoop fsE dir fuel s = (s, 0) := by
  cases fuel <;> simp [convertLoop, h]

/-- One step of the fence pass when an open and a close fence exist. -/
theorem protectFenceLoop_step (fuel idx : Nat) (s : Text) (i j : Nat)
    (h1 : findSub tick3 s = some i) (h2 : findSub tick3 (s.drop (i + 3)) = some j) :
    protectFenceLoop (fuel + 1) idx s =
      ((s.take i) ++ fenceToken idx ++ (protectFenceLoop fuel (idx + 1) ((s.drop (i + 3)).drop (j + 3))).1,
       (fenceToken idx, tick3 ++ ((s.drop (i + 3)).take j) ++ tick3)
         :: (protectFenceLoop fuel (idx + 1) ((s.drop (i + 3)).drop (j + 3))).2.1,
       (protectFenceLoop fuel (idx + 1) ((s.drop (i + 3)).drop (j + 3))).2.2) := by
  simp only [protectFenceLoop, h1, h2]

/-- One step of the inline pass when an open and a close backtick exist. -/
theorem protectInlineLoop_step (fuel idx : Nat) (s : Text) (i j : Nat)
    (h1 : findSub [btick] s = some i) (h2 : findSub [btick] (s.drop (i + 1)) = some j) :
    protectInlineLoop (fuel + 1) idx s =
      ((s.take i) ++ inlineToken idx ++ (protectInlineLoop fuel (idx + 1) ((s.drop (i + 1)).drop (j + 1))).1,
       (inlineToken idx, btick :: ((s.drop (i + 1)).take j) ++ [btick])
         :: (protectInlineLoop fuel (idx + 1) ((s.drop (i + 1)).drop (j + 1))).2.1,
       (protectInlineLoop fuel (idx + 1) ((s.drop (i + 1)).drop (j + 1))).2.2) := by
  simp only [protectInlineLoop, h1, h2]

/-- Protection of a whole-fence text with backtick-free content. -/
theorem protectSegments_fence (b : Text) (hb : btick ∉ b) :
    protectSegments (tick3 ++ b ++ tick3)
      = (fenceToken 0, [(fenceToken 0, tick3 ++ b ++ tick3)]) := by
  have h1 : findSub tick3 (tick3 ++ b ++ tick3) = some 0 := by
    rw [List.append_assoc]
    exact findSub_self_append tick3 (b ++ tick3) (by decide)
  have hdrop3 : (tick3 ++ b ++ tick3).drop (0 + 3) = b ++ tick3 := by
    rw [List.append_assoc]
    rfl
  have h2 : findSub tick3 ((tick3 ++ b ++ tick3).drop (0 + 3)) = some b.length := by
    rw [hdrop3]
    have := findAux_tick3_close b hb [] 0
    simpa [findSub] using this
  have hlen : protectSegments (tick3 ++ b ++ tick3)
      = (let f := protectFenceLoop ((tick3 ++ b ++ tick3).length + 1) 0 (tick3 ++ b ++ tick3)
         let g := protectInlineLoop (f.1.length + 1) f.2.2 f.1
         (g.1, f.2.1 ++ g.2.1)) := rfl
  rw [hlen]
  rw [show (tick3 ++ b ++ tick3).length + 1 = (tick3 ++ b ++ tick3).length + 1 from rfl]
  rw [protectFenceLoop_step _ 0 _ 0 b.length h1 h2]
  rw [hdrop3]
  rw [show (b ++ tick3).take b.length = b from List.take_left b tick3]
  have hdropall : (b ++ tick3).drop (b.length + 3) = [] := by
    apply List.drop_eq_nil_of_le
    simp [tick3]
  rw [hdropall]
  rw [protectFenceLoop_id [] (by simp) _ 1]
  dsimp only
  simp only [List.take_zero, List.nil_append, List.append_nil]
  rw [protectInlineLoop_id (fenceToken 0) (by decide) _ 1]
  simp

/-- Protection of a whole inline-span text with backtick-free content. -/
theorem protectSegments_inline (b : Text) (hb : btick ∉ b) :
    protectSegments (btick :: (b ++ [btick]))
      = (inlineToken 0, [(inlineToken 0, btick :: (b ++ [btick]))]) := by
  have hfence : findSub tick3 (btick :: (b ++ [btick])) = none := by
    cases b with
    | nil => rfl
    | cons c t =>
      have hc : c ≠ btick := fun h => hb (h ▸ List.mem_cons_self c t)
      unfold findSub
      rw [show tick3 = btick :: [btick, btick] from rfl, findAux_neg]
      · rw [show (btick :: [btick, btick] : Text) = tick3 from rfl]
        exact findAux_tick3_single_close (c :: t) hb 1
      · rw [List.cons_append]
        simp only [isPre]
        have : (btick = c) = False := by
          simp [eq_comm]
          exact hc
        simp [this]
  have h1 : findSub [btick] (btick :: (b ++ [btick])) = some 0 := by
    unfold findSub
    exact findAux_pos _ _ _ 0 (by simp [isPre])
  have hdrop1 : (btick :: (b ++ [btick])).drop (0 + 1) = b ++ [btick] := rfl
  have h2 : findSub [btick] ((btick :: (b ++ [btick])).drop (0 + 1)) = some b.length := by
    rw [hdrop1]
    have := findAux_tick1_close b hb [] 0
    simpa [findSub] using this
  have hlen : protectSegments (btick :: (b ++ [btick]))
      = (let f := protectFenceLoop ((btick :: (b ++ [btick])).length + 1) 0 (btick :: (b ++ [btick]))
         let g := protectInlineLoop (f.1.length + 1) f.2.2 f.1
         (g.1, f.2.1 ++ g.2.1)) := rfl
  rw [hlen]
  rw [show protectFenceLoop ((btick :: (b ++ [btick])).length + 1) 0 (btick :: (b ++ [btick]))
      = (btick :: (b ++ [btick]), [], 0) by
    rw [show (btick :: (b ++ [btick])).length + 1 = (b.length + 2) + 1 by simp]
    conv_lhs => rw [protectFenceLoop]
    rw [hfence]]
  dsimp only
  rw [protectInlineLoop_step _ 0 _ 0 b.length h1 h2]
  rw [hdrop1]
  rw [show (b ++ [btick]).take b.length = b from List.take_left b [btick]]
  have hdropall : (b ++ [btick]).drop (b.length + 1) = [] := by
    apply List.drop_eq_nil_of_le
    simp
  rw [hdropall]
  rw [protectInlineLoop_id [] (by simp) _ 1]
  simp

/-! ## Claim C2 (amended part) -/

/-- Claim C2 (amended): the relative-to-absolute pass never rewrites an
image reference inside a code region: a text that is one fenced code block
(or one inline code span) with backtick-free content — in particular one
containing image references to existing files — is returned unchanged with
a converted count of zero.  (The absolute-to-relative pass has no such
protection; see the counterexample.) -/
theorem c2_code_fence_amended (fsE : Comps → Bool) (dir : Comps) (b : Text)
    (hb : btick ∉ b) :
    convertImagesInText fsE dir (tick3 ++ b ++ tick3) = (tick3 ++ b ++ tick3, 0) ∧
    convertImagesInText fsE dir (btick :: (b ++ [btick])) = (btick :: (b ++ [btick]), 0) := by
  constructor
  · unfold convertImagesInText
    rw [protectSegments_fence b hb]
    dsimp only
    rw [convertLoop_none fsE dir _ (fenceToken 0) (by decide)]
    simp only [restoreSegments, List.foldl_cons, List.foldl_nil]
    rw [pyReplace_whole (fenceToken 0) (tick3 ++ b ++ tick3) (by decide)]
  · unfold convertImagesInText
    rw [protectSegments_inline b hb]
    dsimp only
    rw [convertLoop_none fsE dir _ (inlineToken 0) (by decide)]
    simp only [restoreSegments, List.foldl_cons, List.foldl_nil]
    rw [pyReplace_whole (inlineToken 0) (btick :: (b ++ [btick])) (by decide)]

/-- Witness for the amended claim C2: a fenced image reference to an
existing asset survives the absolute pass untouched. -/
theorem c2_code_fence_amended_witness :
    convertImagesInText fsX exDir (tick3 ++ "![a](../../assets/x.png)".data ++ tick3)
      = (tick3 ++ "![a](../../assets/x.png)".data ++ tick3, 0) ∧
    convertImagesInText fsX exDir (btick :: "![a](../../assets/x.png)".data ++ [btick])
      = (btick :: "![a](../../assets/x.png)".data ++ [btick], 0) :=
  c2_code_fence_amended fsX exDir "![a](../../assets/x.png)".data (by decide)

/-! ## TOC lemmas for claim C4 -/

/-- The loop on the empty text. -/
theorem stripLoop_nil : ∀ fuel, stripToAnchorsLoop fuel [] = [] := by
  intro fuel; cases fuel <;> rfl

/-- A failed `strip_to_anchors` candidate at a non-parenthesis head. -/
theorem tryStripMatch_not_paren (c : Char) (t : Text) (h : c ≠ '(') :
    tryStripMatch (c :: t) = none := by
  unfold tryStripMatch
  split
  · rename_i rest heq
    injection heq with h1 _
    exact absurd h1 h
  · rfl

/-- Splitting at the first occurrence of a character. -/
theorem splitAtChar_append (d : Char) (pre : Text) (hd : d ∉ pre) (rest : Text) :
    splitAtChar d (pre ++ d :: rest) = some (pre, rest) := by
  induction pre with
  | nil => simp [splitAtChar]
  | cons c t ih =>
    have hc : c ≠ d := fun h => hd (h ▸ List.mem_cons_self c t)
    rw [List.cons_append]
    conv_lhs => rw [splitAtChar]
    rw [if_neg hc, ih (fun h => hd (List.mem_cons_of_mem c h))]
    rfl

/-! ### Path-model lemmas -/

/-- A slash-free text splits to itself. -/
theorem splitOnSlash_no_slash (c : Text) (hc : '/' ∉ c) :
    splitOnSlash c = [c] := by
  induction c with
  | nil => rfl
  | cons d t ih =>
    have hd : ¬ d = '/' := fun h => hc (h ▸ List.mem_cons_self d t)
    have ht : '/' ∉ t := fun h => hc (List.mem_cons_of_mem d h)
    rw [splitOnSlash, if_neg hd, ih ht]

/-- Splitting peels a slash-free component before a slash. -/
theorem splitOnSlash_slash_append (c : Text) (hc : '/' ∉ c) (r : Text) :
    splitOnSlash (c ++ '/' :: r) = c :: splitOnSlash r := by
  induction c with
  | nil => simp [splitOnSlash]
  | cons d t ih =>
    have hd : ¬ d = '/' := fun h => hc (h ▸ List.mem_cons_self d t)
    have ht : '/' ∉ t := fun h => hc (List.mem_cons_of_mem d h)
    rw [List.cons_append, splitOnSlash, if_neg hd, ih ht]

/-- A single clean component parses to itself. -/
theorem splitPath_single (c : Text) (h1 : c ≠ []) (h2 : c ≠ ".".data)
    (h3 : '/' ∉ c) : splitPath c = [c] := by
  unfold splitPath
  rw [splitOnSlash_no_slash c h3]
  simp [h1, h2]

/-- Joining components with `/` and re-splitting recovers the components. -/
theorem splitPath_flatten (parts : Comps)
    (h : ∀ c ∈ parts, c ≠ [] ∧ c ≠ ".".data ∧ '/' ∉ c) :
    splitPath ((parts.intersperse "/".data).flatten) = parts := by
  induction parts with
  | nil => rfl
  | cons c t ih =>
    cases t with
    | nil =>
      simp only [List.intersperse_singleton, List.flatten_cons, List.flatten_nil,
        List.append_nil]
      exact splitPath_single c (h c (by simp)).1 (h c (by simp)).2.1 (h c (by simp)).2.2
    | cons d u =>
      rw [List.intersperse_cons_cons, List.flatten_cons]
      have hsep : ("/".data : Text) :: (d :: u).intersperse "/".data
          = [("/".data : Text)] ++ (d :: u).intersperse "/".data := rfl
      rw [hsep, List.flatten_append]
      have hfl : (([("/".data : Text)]).flatten : Text)
          = "/".data := by simp
      rw [hfl]
      have : ("/".data : Text) ++ ((d :: u).intersperse "/".data).flatten
          = '/' :: ((d :: u).intersperse "/".data).flatten := rfl
      rw [this]
      unfold splitPath
      rw [splitOnSlash_slash_append c (h c (by simp)).2.2]
      rw [List.filter_cons]
      have hkeep : (decide (c ≠ [] ∧ c ≠ ".".data)) = true := by
        simp [(h c (by simp)).1, (h c (by simp)).2.1]
      rw [hkeep]
      simp only [if_true]
      have := ih (fun x hx => h x (List.mem_cons_of_mem c hx))
      unfold splitPath at this
      rw [this]

/-- Parsing a rendered absolute path of clean components. -/
theorem splitPath_renderAbs (p : Comps) (h : cleanComps p = true) :
    splitPath (renderAbs p) = p := by
  unfold renderAbs
  have hstep : splitPath ('/' :: ((p.intersperse "/".data).flatten))
      = splitPath ((p.intersperse "/".data).flatten) := by
    unfold splitPath
    rw [show splitOnSlash ('/' :: ((p.intersperse "/".data).flatten))
        = [] :: splitOnSlash ((p.intersperse "/".data).flatten) from by
      rw [splitOnSlash, if_pos rfl]]
    rw [List.filter_cons]
    simp
  rw [hstep]
  apply splitPath_flatten
  intro c hcmem
  have hcl : cleanComp c = true := by
    have := (List.all_eq_true.mp h) c hcmem
    simpa using this
  simp only [cleanComp, Bool.and_eq_true, decide_eq_true_eq, List.all_eq_true] at hcl
  refine ⟨hcl.1, hcl.2.1, fun hm => ?_⟩
  exact ((hcl.2.2.2 '/' hm).2) rfl

/-- Unpack the component-cleanliness predicate. -/
theorem cleanComp_spec (c : Text) (h : cleanComp c = true) :
    c ≠ [] ∧ c ≠ ".".data ∧ c ≠ "..".data ∧
      ∀ d ∈ c, cleanTargetCh d = true ∧ d ≠ '/' := by
  simp only [cleanComp, Bool.and_eq_true, decide_eq_true_eq, List.all_eq_true] at h
  refine ⟨h.1, h.2.1, h.2.2.1, fun d hd => ?_⟩
  have := h.2.2.2 d hd
  simpa using this

/-- Unpack cleanliness of every component. -/
theorem cleanComps_spec (p : Comps) (h : cleanComps p = true) :
    ∀ c ∈ p, c ≠ [] ∧ c ≠ ".".data ∧ c ≠ "..".data ∧
      ∀ d ∈ c, cleanTargetCh d = true ∧ d ≠ '/' := by
  intro c hc
  have hcl : cleanComp c = true := (List.all_eq_true.mp h) c hc
  exact cleanComp_spec c hcl

/-- Folding components without `..` just appends them. -/
theorem foldl_applyComp_no_dotdot (parts : Comps)
    (h : ∀ c ∈ parts, c ≠ "..".data) :
    ∀ acc, parts.foldl applyComp acc = acc ++ parts := by
  induction parts with
  | nil => intro acc; simp
  | cons c t ih =>
    intro acc
    rw [List.foldl_cons]
    rw [show applyComp acc c = acc ++ [c] from by
      unfold applyComp; rw [if_neg (h c (by simp))]]
    rw [ih (fun d hd => h d (List.mem_cons_of_mem c hd)) (acc ++ [c])]
    simp

/-- Resolving a rendered absolute path of clean components. -/
theorem resolveAbsStr_renderAbs (p : Comps) (h : cleanComps p = true) :
    resolveAbsStr (renderAbs p) = p := by
  unfold resolveAbsStr
  rw [splitPath_renderAbs p h]
  rw [foldl_applyComp_no_dotdot p
    (fun c hc => (cleanComps_spec p h c hc).2.2.1) []]
  simp

/-- The common prefix length is at most the left length. -/
theorem commonLen_le_left (p : Comps) : ∀ q, commonLen p q ≤ p.length := by
  induction p with
  | nil => intro q; cases q <;> simp [commonLen]
  | cons a as ih =>
    intro q
    cases q with
    | nil => simp [commonLen]
    | cons b bs =>
      by_cases hab : a = b
      · simp only [commonLen, if_pos hab, List.length_cons]
        exact Nat.succ_le_succ (ih bs)
      · simp [commonLen, hab]

/-- The common prefix length is at most the right length. -/
theorem commonLen_le_right (p : Comps) : ∀ q, commonLen p q ≤ q.length := by
  induction p with
  | nil => intro q; cases q <;> simp [commonLen]
  | cons a as ih =>
    intro q
    cases q with
    | nil => simp [commonLen]
    | cons b bs =>
      by_cases hab : a = b
      · simp only [commonLen, if_pos hab, List.length_cons]
        exact Nat.succ_le_succ (ih bs)
      · simp [commonLen, hab]

/-- The two lists agree on their common prefix. -/
theorem commonLen_take (p : Comps) : ∀ q,
    p.take (commonLen p q) = q.take (commonLen p q) := by
  induction p with
  | nil => intro q; cases q <;> simp [commonLen]
  | cons a as ih =>
    intro q
    cases q with
    | nil => simp [commonLen]
    | cons b bs =>
      by_cases hab : a = b
      · simp only [commonLen, if_pos hab, List.take_succ_cons]
        rw [hab, ih bs]
      · simp [commonLen, hab]

/-- Folding `m` copies of `..` drops the last `m` components. -/
theorem foldl_applyComp_replicate (m : Nat) :
    ∀ dir : Comps, (List.replicate m "..".data).foldl applyComp dir
      = dir.take (dir.length - m) := by
  induction m with
  | zero => intro dir; simp
  | succ m ih =>
    intro dir
    rw [List.replicate_succ, List.foldl_cons]
    rw [show applyComp dir "..".data = dir.dropLast from by
      unfold applyComp; rw [if_pos rfl]]
    rw [ih dir.dropLast, List.length_dropLast]
    rw [List.dropLast_eq_take, List.take_take]
    congr 1
    omega

/-- `.` parses to no components. -/
theorem splitPath_dot : splitPath ".".data = [] := rfl

/-- Resolving the relative path from `dir` to clean components `p` against
`dir` gives back `p` (the core of the `relpath` round trip). -/
theorem resolveRel_relpathComps (p dir : Comps) (hp : cleanComps p = true) :
    resolveRel dir (relpathComps p dir) = p := by
  have hk1 : commonLen p dir ≤ p.length := commonLen_le_left p dir
  have hk2 : commonLen p dir ≤ dir.length := commonLen_le_right p dir
  have htake : p.take (commonLen p dir) = dir.take (commonLen p dir) :=
    commonLen_take p dir
  unfold resolveRel relpathComps
  dsimp only
  split
  · next hparts =>
    rw [splitPath_dot]
    simp only [List.foldl_nil]
    rw [List.append_eq_nil] at hparts
    have hrep : dir.length - commonLen p dir = 0 := by
      have := congrArg List.length hparts.1
      simpa using this
    have hkp : commonLen p dir = p.length := by
      have := List.drop_eq_nil_iff_le.mp hparts.2
      omega
    have hkd : commonLen p dir = dir.length := by omega
    have hpd : p = dir := by
      calc p = p.take (commonLen p dir) := by rw [hkp, List.take_length]
        _ = dir.take (commonLen p dir) := htake
        _ = dir := by rw [hkd, List.take_length]
    exact hpd.symm
  · next hparts =>
    have hcomp : ∀ c ∈ (List.replicate (dir.length - commonLen p dir) "..".data
        ++ p.drop (commonLen p dir)), c ≠ [] ∧ c ≠ ".".data ∧ '/' ∉ c := by
      intro c hc
      rw [List.mem_append] at hc
      rcases hc with hc | hc
      · have := List.eq_of_mem_replicate hc
        subst this
        exact ⟨by decide, by decide, by decide⟩
      · have hmem : c ∈ p := List.mem_of_mem_drop hc
        have hcl := cleanComps_spec p hp c hmem
        exact ⟨hcl.1, hcl.2.1, fun hm => (hcl.2.2.2 '/' hm).2 rfl⟩
    rw [splitPath_flatten _ hcomp]
    rw [List.foldl_append]
    rw [foldl_applyComp_replicate (dir.length - commonLen p dir) dir]
    rw [foldl_applyComp_no_dotdot (p.drop (commonLen p dir)) (fun c hc =>
      (cleanComps_spec p hp c (List.mem_of_mem_drop hc)).2.2.1)]
    rw [show dir.length - (dir.length - commonLen p dir) = commonLen p dir from by
      omega]
    rw [← htake, List.take_append_drop]

/-- An element of an interspersed list is an element or the separator. -/
theorem mem_of_intersperse {α : Type} (sep : α) :
    ∀ (l : List α) (x : α), x ∈ l.intersperse sep → x ∈ l ∨ x = sep
  | [], _, h => by simp at h
  | [a], x, h => by
    rw [List.intersperse_singleton] at h
    simp at h
    exact Or.inl (by simp [h])
  | a :: b :: t, x, h => by
    rw [List.intersperse_cons_cons] at h
    rcases List.mem_cons.mp h with h1 | h1
    · exact Or.inl (by simp [h1])
    · rcases List.mem_cons.mp h1 with h2 | h2
      · exact Or.inr h2
      · rcases mem_of_intersperse sep (b :: t) x h2 with h3 | h3
        · exact Or.inl (List.mem_cons_of_mem a h3)
        · exact Or.inr h3

/-- Every character of a component-joined text comes from a component or
is a slash. -/
theorem mem_flatten_intersperse (parts : Comps) (d : Char)
    (h : d ∈ ((parts.intersperse "/".data).flatten)) :
    (∃ c ∈ parts, d ∈ c) ∨ d = '/' := by
  rw [List.mem_flatten] at h
  obtain ⟨t, ht, hdt⟩ := h
  rcases mem_of_intersperse "/".data parts t ht with h1 | h1
  · exact Or.inl ⟨t, h1, hdt⟩
  · subst h1
    simp at hdt
    exact Or.inr hdt

/-- Every character of a relative path between clean components is target
clean. -/
theorem relpath_clean (p dir : Comps) (hp : cleanComps p = true) :
    ∀ d ∈ relpathComps p dir, cleanTargetCh d = true := by
  unfold relpathComps
  dsimp only
  split
  · intro d hd
    simp at hd
    subst hd
    decide
  · intro d hd
    rcases mem_flatten_intersperse _ d hd with ⟨c, hc, hdc⟩ | h1
    · rw [List.mem_append] at hc
      rcases hc with hc | hc
      · have := List.eq_of_mem_replicate hc
        subst this
        simp at hdc
        subst hdc
        decide
      · exact ((cleanComps_spec p hp c (List.mem_of_mem_drop hc)).2.2.2 d hdc).1
    · subst h1
      decide

/-- A relative path between components is never empty. -/
theorem relpath_ne_nil (p dir : Comps) (hp : cleanComps p = true) :
    relpathComps p dir ≠ [] := by
  unfold relpathComps
  dsimp only
  split
  · simp
  · next hparts =>
    obtain ⟨a, rest, ha⟩ := List.exists_cons_of_ne_nil hparts
    have hane : a ≠ [] := by
      have hmem : a ∈ List.replicate (dir.length - commonLen p dir) "..".data
          ++ p.drop (commonLen p dir) := ha ▸ List.mem_cons_self a rest
      rw [List.mem_append] at hmem
      rcases hmem with hmem | hmem
      · have := List.eq_of_mem_replicate hmem
        subst this; decide
      · exact (cleanComps_spec p hp a (List.mem_of_mem_drop hmem)).1
    rw [ha]
    cases rest with
    | nil =>
      rw [List.intersperse_singleton]
      simpa using hane
    | cons b t =>
      rw [List.intersperse_cons_cons]
      simp [List.append_eq_nil, hane]

/-- The head character of a relative path between clean components. -/
theorem relpath_head_ne_slash (p dir : Comps) (hp : cleanComps p = true) :
    ∀ c X, relpathComps p dir = c :: X → c ≠ '/' := by
  unfold relpathComps
  dsimp only
  split
  · intro c X hc
    simp [List.cons.injEq] at hc
    rcases hc with ⟨h1, _⟩
    subst h1; decide
  · next hparts =>
    intro c X hc
    obtain ⟨a, rest, ha⟩ := List.exists_cons_of_ne_nil hparts
    have hmem : a ∈ List.replicate (dir.length - commonLen p dir) "..".data
        ++ p.drop (commonLen p dir) := ha ▸ List.mem_cons_self a rest
    have hahead : ∀ e ∈ a, e ≠ '/' := by
      rw [List.mem_append] at hmem
      rcases hmem with hmem | hmem
      · have := List.eq_of_mem_replicate hmem
        subst this
        intro e he
        simp at he
        subst he; decide
      · intro e he
        exact ((cleanComps_spec p hp a (List.mem_of_mem_drop hmem)).2.2.2 e he).2
    have hane : a ≠ [] := by
      rw [List.mem_append] at hmem
      rcases hmem with hmem | hmem
      · have := List.eq_of_mem_replicate hmem
        subst this; decide
      · exact (cleanComps_spec p hp a (List.mem_of_mem_drop hmem)).1
    obtain ⟨e, a2, hae⟩ := List.exists_cons_of_ne_nil hane
    rw [ha, hae] at hc
    cases rest with
    | nil =>
      rw [List.intersperse_singleton] at hc
      simp only [List.flatten_cons, List.flatten_nil, List.append_nil,
        List.cons_append, List.cons.injEq] at hc
      rcases hc with ⟨h1, _⟩
      exact h1 ▸ hahead e (hae ▸ List.mem_cons_self e a2)
    | cons b t =>
      rw [List.intersperse_cons_cons] at hc
      simp only [List.flatten_cons, List.cons_append, List.cons.injEq] at hc
      rcases hc with ⟨h1, _⟩
      exact h1 ▸ hahead e (hae ▸ List.mem_cons_self e a2)

/-- A relative path between clean components never starts with `/`. -/
theorem relpath_not_abs (p dir : Comps) (hp : cleanComps p = true) :
    isAbsPath (relpathComps p dir) = false := by
  rcases hrel : relpathComps p dir with _ | ⟨c, X⟩
  · rfl
  · have hc := relpath_head_ne_slash p dir hp c X hrel
    simp [isAbsPath, hc]

/-- `lstrip` is the identity on whitespace-free text. -/
theorem lstrip_of_wsFree (s : Text) (h : ∀ c ∈ s, isWs c = false) :
    lstrip s = s := by
  cases s with
  | nil => rfl
  | cons c t =>
    rw [lstrip]
    simp [h c (by simp)]

/-- `rstrip` is the identity on whitespace-free text. -/
theorem rstrip_of_wsFree (s : Text) (h : ∀ c ∈ s, isWs c = false) :
    rstrip s = s := by
  unfold rstrip
  rw [lstrip_of_wsFree s.reverse (fun c hc => h c (List.mem_reverse.mp hc))]
  exact List.reverse_reverse s

/-- `strip` is the identity on whitespace-free text. -/
theorem strip_of_wsFree (s : Text) (h : ∀ c ∈ s, isWs c = false) :
    strip s = s := by
  unfold strip
  rw [lstrip_of_wsFree s h, rstrip_of_wsFree s h]

/-- Unpack the target-character cleanliness predicate. -/
theorem cleanTargetCh_spec (c : Char) (h : cleanTargetCh c = true) :
    isWs c = false ∧ c ≠ btick ∧ c ≠ '<' ∧ c ≠ '>' ∧ c ≠ '(' ∧ c ≠ ')' ∧
      c ≠ '"' ∧ c ≠ '\'' := by
  simp only [cleanTargetCh, Bool.and_eq_true, decide_eq_true_eq] at h
  exact ⟨by simpa using h.1, h.2⟩

/-- Every character of a rendered absolute path of clean components is
target clean. -/
theorem renderAbs_clean (p : Comps) (hp : cleanComps p = true) :
    ∀ d ∈ renderAbs p, cleanTargetCh d = true := by
  intro d hd
  unfold renderAbs at hd
  rcases List.mem_cons.mp hd with h1 | h1
  · subst h1; decide
  · rcases mem_flatten_intersperse p d h1 with ⟨c, hc, hdc⟩ | h2
    · exact ((cleanComps_spec p hp c hc).2.2.2 d hdc).1
    · subst h2; decide

/-- A rendered absolute path is absolute. -/
theorem renderAbs_isAbs (p : Comps) : isAbsPath (renderAbs p) = true := rfl

/-- A rendered absolute path is a good target. -/
theorem goodTarget_renderAbs (p : Comps) (hp : cleanComps p = true) :
    goodTarget (renderAbs p) = true := by
  simp only [goodTarget, Bool.and_eq_true, decide_eq_true_eq, List.all_eq_true]
  refine ⟨by simp [renderAbs], fun d hd => by simpa using renderAbs_clean p hp d hd⟩

/-- A relative path between clean components is a good target. -/
theorem goodTarget_relpath (p dir : Comps) (hp : cleanComps p = true) :
    goodTarget (relpathComps p dir) = true := by
  simp only [goodTarget, Bool.and_eq_true, decide_eq_true_eq, List.all_eq_true]
  exact ⟨relpath_ne_nil p dir hp, fun d hd => by simpa using relpath_clean p dir hp d hd⟩

/-- Clean targets are whitespace free. -/
theorem wsFree_of_clean (t : Text) (h : ∀ c ∈ t, cleanTargetCh c = true) :
    ∀ c ∈ t, isWs c = false :=
  fun c hc => (cleanTargetCh_spec c (h c hc)).1

/-- A text starting with `/` is never URL-or-anchor-like. -/
theorem isUrlOrAnchor_slash (X : Text) : isUrlOrAnchor ('/' :: X) = false := rfl

/-- A text starting with `/` but not `//` is not URL-like. -/
theorem isUrlLike_slash (X : Text) (hX : X.head? ≠ some '/') :
    isUrlLike ('/' :: X) = false := by
  unfold isUrlLike
  cases X with
  | nil => rfl
  | cons c t =>
    simp only [List.head?_cons, ne_eq, Option.some.injEq] at hX
    have hc : ¬ ('/' = c) := fun h => hX h.symm
    have : isPre "//".data ('/' :: c :: t) = false := by
      show (decide ('/' = '/') && (decide ('/' = c) && isPre [] t)) = false
      simp [hc]
    rw [this]
    rfl

/-- A joined nonempty component list starts with its first component. -/
theorem joinSlash_cons (a : Text) (rest : Comps) :
    ∃ Y, (((a :: rest).intersperse "/".data)).flatten = a ++ Y := by
  cases rest with
  | nil => exact ⟨[], by simp [List.intersperse_singleton]⟩
  | cons b t =>
    exact ⟨"/".data ++ ((b :: t).intersperse "/".data).flatten, by
      rw [List.intersperse_cons_cons]; simp⟩

/-- A rendered absolute path of clean components is not URL-like. -/
theorem isUrlLike_renderAbs (p : Comps) (hp : cleanComps p = true) :
    isUrlLike (renderAbs p) = false := by
  unfold renderAbs
  cases p with
  | nil => rfl
  | cons a rest =>
    obtain ⟨Y, hY⟩ := joinSlash_cons a rest
    rw [hY]
    have hane : a ≠ [] := (cleanComps_spec _ hp a (by simp)).1
    obtain ⟨e, a2, hae⟩ := List.exists_cons_of_ne_nil hane
    have he : e ≠ '/' :=
      ((cleanComps_spec _ hp a (by simp)).2.2.2 e (hae ▸ List.mem_cons_self e a2)).2
    rw [hae, List.cons_append]
    apply isUrlLike_slash
    simp only [List.head?_cons, ne_eq, Option.some.injEq]
    simpa using he

/-- A rendered absolute path is not URL-or-anchor-like. -/
theorem isUrlOrAnchor_renderAbs (p : Comps) :
    isUrlOrAnchor (renderAbs p) = false := rfl

/-! ### Scanner lemmas for the absolute pass -/

/-- The balanced-paren scanner on a clean target before `)`. -/
theorem scanParens_clean (tgt : Text) (h : ∀ c ∈ tgt, cleanTargetCh c = true) :
    ∀ rest, scanParens (tgt ++ ')' :: rest) 0 false = some (tgt, rest) := by
  induction tgt with
  | nil => intro rest; rfl
  | cons c t ih =>
    intro rest
    have hc := cleanTargetCh_spec c (h c (by simp))
    rw [List.cons_append, scanParens]
    rw [if_neg (by simp), if_neg (by simp [hc.2.2.1]),
      if_neg (by simpa using hc.2.2.2.2.1), if_neg (by simpa using hc.2.2.2.2.2.1)]
    rw [ih (fun d hd => h d (List.mem_cons_of_mem c hd)) rest]
    rfl

/-- A prefix test fails on a different head character (string form). -/
theorem isPre_lt_head (s : Text) (c : Char) (t : Text) (hst : s = c :: t)
    (hc : c ≠ '<') : isPre "<".data s = false := by
  subst hst
  have hc2 : ¬ ('<' = c) := fun h => hc h.symm
  show (decide ('<' = c) && isPre [] t) = false
  simp [hc2]

/-- `_strip_angle_brackets` is the identity without a leading `<`. -/
theorem stripAngle_id (s : Text) (h : isPre "<".data s = false) :
    stripAngle s = s := by
  unfold stripAngle
  rw [if_neg (by simp [h])]

/-- `_strip_angles` finds no angles without a leading `<`. -/
theorem stripAnglesPair_id (s : Text) (h : isPre "<".data s = false) :
    stripAnglesPair s = (s, false) := by
  unfold stripAnglesPair
  rw [if_neg (by simp [h])]

/-- The angle branch of `_split_inside_parens` fails without a leading `<`. -/
theorem tryAngleSplit_none (s : Text) (h : s.head? ≠ some '<') :
    tryAngleSplit s = none := by
  cases s with
  | nil => rfl
  | cons c t =>
    simp only [List.head?_cons, ne_eq, Option.some.injEq] at h
    unfold tryAngleSplit
    split
    · next u heq =>
      rw [List.cons.injEq] at heq
      exact absurd heq.1 h
    · rfl

/-- The bare-target scanner of `_split_inside_parens` on a clean text. -/
theorem bareSplit_clean (tgt : Text) (h : ∀ c ∈ tgt, cleanTargetCh c = true) :
    bareSplit tgt 0 = (tgt, []) := by
  induction tgt with
  | nil => rfl
  | cons c t ih =>
    have hc := cleanTargetCh_spec c (h c (by simp))
    rw [bareSplit]
    rw [if_neg (by simpa using hc.2.2.2.2.1),
      if_neg (by simpa using hc.2.2.2.2.2.1),
      if_neg (by simp [hc.1])]
    rw [ih (fun d hd => h d (List.mem_cons_of_mem c hd))]

/-- `_split_inside_parens` returns a good target whole, with no title. -/
theorem splitInsideParens_clean (tgt : Text) (h : goodTarget tgt = true) :
    splitInsideParens tgt = (tgt, []) := by
  simp only [goodTarget, Bool.and_eq_true, decide_eq_true_eq,
    List.all_eq_true] at h
  obtain ⟨hne, hall⟩ := h
  have hclean : ∀ c ∈ tgt, cleanTargetCh c = true := fun c hc => by
    simpa using hall c hc
  have hws : ∀ c ∈ tgt, isWs c = false := wsFree_of_clean tgt hclean
  unfold splitInsideParens
  rw [strip_of_wsFree tgt hws]
  rw [if_neg hne]
  have hang : tgt.head? ≠ some '<' := by
    obtain ⟨c, t, hct⟩ := List.exists_cons_of_ne_nil hne
    subst hct
    simp
    exact fun hcc => absurd hcc ((cleanTargetCh_spec c (hclean c (by simp))).2.2.1)
  rw [tryAngleSplit_none tgt hang]
  rw [bareSplit_clean tgt hclean]
  simp only
  rw [rstrip_of_wsFree tgt hws]

/-- Unpack chunk goodness. -/
theorem goodChunk_spec (c : Text) (h : goodChunk c = true) :
    ∀ d ∈ c, d ≠ btick ∧ d ≠ '[' ∧ d ≠ '<' := by
  simp only [goodChunk, List.all_eq_true] at h
  intro d hd
  simpa using h d hd

/-- Unpack alt goodness. -/
theorem goodAlt_spec (a : Text) (h : goodAlt a = true) :
    ∀ d ∈ a, d ≠ btick ∧ d ≠ '[' ∧ d ≠ ']' ∧ d ≠ '<' := by
  simp only [goodAlt, List.all_eq_true] at h
  intro d hd
  simpa using h d hd

/-- Unpack target goodness. -/
theorem goodTarget_spec (t : Text) (h : goodTarget t = true) :
    t ≠ [] ∧ ∀ d ∈ t, cleanTargetCh d = true := by
  simp only [goodTarget, Bool.and_eq_true, decide_eq_true_eq,
    List.all_eq_true] at h
  exact ⟨h.1, fun d hd => by simpa using h.2 d hd⟩

/-- A good target does not start with `<`. -/
theorem goodTarget_no_angle (t : Text) (h : goodTarget t = true) :
    isPre "<".data t = false := by
  obtain ⟨hne, hcl⟩ := goodTarget_spec t h
  obtain ⟨c, u, hcu⟩ := List.exists_cons_of_ne_nil hne
  exact isPre_lt_head t c u hcu
    (cleanTargetCh_spec c (hcl c (hcu ▸ List.mem_cons_self c u))).2.2.1

/-- A rendered reference in cons normal form. -/
theorem renderRef_append (r : FamRef) (s : Text) :
    renderRef r ++ s
      = '!' :: '[' :: (r.alt ++ (']' :: '(' :: (r.target ++ (')' :: s)))) := by
  unfold renderRef
  simp only [List.append_assoc, List.cons_append]
  rfl

/-- The image-candidate parse succeeds at a well-formed reference body. -/
theorem imgCandidate_ref (alt tgt rest : Text) (halt : ']' ∉ alt)
    (htgt : ∀ c ∈ tgt, cleanTargetCh c = true) :
    imgCandidate ('[' :: (alt ++ (']' :: '(' :: (tgt ++ (')' :: rest)))))
      = some ⟨[], alt, tgt, rest⟩ := by
  rw [imgCandidate]
  rw [splitAtChar_append ']' alt halt ('(' :: (tgt ++ (')' :: rest)))]
  show (match scanParens (tgt ++ (')' :: rest)) 0 false with
    | some (inside, rest2) => some (⟨[], alt, inside, rest2⟩ : ImgTag)
    | none => none) = some ⟨[], alt, tgt, rest⟩
  rw [scanParens_clean tgt htgt rest]

/-- The image-candidate parse fails without a leading `[`. -/
theorem imgCandidate_none (t : Text) (h : t.head? ≠ some '[') :
    imgCandidate t = none := by
  cases t with
  | nil => rfl
  | cons c u =>
    simp only [List.head?_cons, ne_eq, Option.some.injEq] at h
    unfold imgCandidate
    split
    · next u2 heq =>
      rw [List.cons.injEq] at heq
      exact absurd heq.1 h
    · rfl

/-- One skip step of `_find_image_tag`. -/
theorem findImageTag_cons (c : Char) (t : Text)
    (h : c = '!' → imgCandidate t = none) :
    findImageTag (c :: t)
      = (findImageTag t).map fun r => { r with pre := c :: r.pre } := by
  simp only [findImageTag]
  by_cases hc : c = '!'
  · rw [if_pos hc, h hc]
  · rw [if_neg hc]

/-- `_find_image_tag` finds nothing in a plain chunk. -/
theorem findImageTag_chunk_none (c : Text) (hc : goodChunk c = true) :
    findImageTag c = none := by
  induction c with
  | nil => rfl
  | cons d t ih =>
    have hct : goodChunk t = true := by
      simp only [goodChunk, List.all_cons, Bool.and_eq_true] at hc
      exact hc.2
    have hth : t.head? ≠ some '[' := by
      cases t with
      | nil => simp
      | cons e u =>
        have he := goodChunk_spec _ hc e (by simp)
        simp [he.2.1]
    rw [findImageTag_cons d t (fun _ => imgCandidate_none t hth), ih hct]
    rfl

/-- `_find_image_tag` walks across a plain chunk. -/
theorem findImageTag_chunk_append (c : Text) (hc : goodChunk c = true)
    (s : Text) (hs : s.head? ≠ some '[') :
    findImageTag (c ++ s)
      = (findImageTag s).map fun r => { r with pre := c ++ r.pre } := by
  induction c with
  | nil =>
    simp only [List.nil_append]
    cases findImageTag s with
    | none => rfl
    | some r => simp
  | cons d t ih =>
    have hct : goodChunk t = true := by
      simp only [goodChunk, List.all_cons, Bool.and_eq_true] at hc
      exact hc.2
    have hts : (t ++ s).head? ≠ some '[' := by
      cases t with
      | nil => simpa using hs
      | cons e u =>
        have he := goodChunk_spec _ hc e (by simp)
        simp [he.2.1]
    rw [List.cons_append]
    rw [findImageTag_cons d (t ++ s) (fun _ => imgCandidate_none _ hts)]
    rw [ih hct]
    cases findImageTag s with
    | none => rfl
    | some r => simp

/-- `_find_image_tag` at a chunk followed by a good reference. -/
theorem findImageTag_ref (c : Text) (hc : goodChunk c = true) (r : FamRef)
    (halt : goodAlt r.alt = true) (htgt : goodTarget r.target = true)
    (X : Text) :
    findImageTag (c ++ (renderRef r ++ X)) = some ⟨c, r.alt, r.target, X⟩ := by
  have hcore : findImageTag (renderRef r ++ X)
      = some ⟨[], r.alt, r.target, X⟩ := by
    rw [renderRef_append]
    simp only [findImageTag]
    rw [if_pos trivial]
    rw [imgCandidate_ref r.alt r.target X
      (fun hm => (goodAlt_spec _ halt ']' hm).2.2.1 rfl)
      (goodTarget_spec _ htgt).2]
  rw [findImageTag_chunk_append c hc _ (by rw [renderRef_append]; simp)]
  rw [hcore]
  simp

/-- Unpack pair goodness. -/
theorem goodPair_spec (p : Text × FamRef) (h : goodPair p = true) :
    goodChunk p.1 = true ∧ goodAlt p.2.alt = true ∧ goodTarget p.2.target = true := by
  simp only [goodPair, Bool.and_eq_true, decide_eq_true_eq] at h
  exact h

/-- The conversion loop acts reference-by-reference on a structured text. -/
theorem convertLoop_pairs (fsE : Comps → Bool) (dir : Comps)
    (ps : List (Text × FamRef)) :
    ∀ (tailC : Text) (fuel : Nat), goodPairs ps = true →
      goodChunk tailC = true → ps.length < fuel →
      convertLoop fsE dir fuel (renderPairs ps tailC)
        = (renderPairs (absPairsMap fsE dir ps) tailC, absPairsCount fsE dir ps) := by
  induction ps with
  | nil =>
    intro tailC fuel _ ht hf
    cases fuel with
    | zero => omega
    | succ n =>
      rw [renderPairs, convertLoop, findImageTag_chunk_none tailC ht]
      rfl
  | cons pr rest ih =>
    intro tailC fuel hg ht hf
    obtain ⟨chunk, r⟩ := pr
    have hgs : goodPair (chunk, r) = true ∧ goodPairs rest = true := by
      simp only [goodPairs, List.all_cons, Bool.and_eq_true] at hg
      exact hg
    obtain ⟨hchunk, halt, htgt⟩ := goodPair_spec _ hgs.1
    have hne : r.target ≠ [] := (goodTarget_spec _ htgt).1
    have hclean : ∀ d ∈ r.target, cleanTargetCh d = true := (goodTarget_spec _ htgt).2
    have hws : ∀ d ∈ r.target, isWs d = false := wsFree_of_clean _ hclean
    cases fuel with
    | zero => simp at hf
    | succ fuel =>
      have hfind := findImageTag_ref chunk hchunk r halt htgt (renderPairs rest tailC)
      have hsplit := splitInsideParens_clean r.target htgt
      have hangle := stripAngle_id r.target (goodTarget_no_angle _ htgt)
      have hstrip := strip_of_wsFree r.target hws
      have hih := ih tailC fuel hgs.2 ht (by simp at hf; omega)
      rw [renderPairs, List.append_assoc, convertLoop, hfind]
      simp only [hsplit, hangle, hstrip, hih]
      rw [if_neg hne]
      by_cases hurl : isUrlLike r.target ∨ isAbsPath r.target
      · rw [if_pos hurl]
        simp only [absPairsMap, absPairsCount, List.map_cons, List.sum_cons,
          absRefStep, absRefCount, if_pos hurl, renderPairs, renderRef,
          Prod.mk.injEq]
        constructor
        · simp [List.append_assoc]
        · simp
      · rw [if_neg hurl]
        by_cases hex : fsE (resolveRel dir r.target) = true
        · rw [if_pos hex]
          simp only [absPairsMap, absPairsCount, List.map_cons, List.sum_cons,
            absRefStep, absRefCount, if_neg hurl, if_pos hex, renderPairs,
            renderRef, Prod.mk.injEq]
          constructor
          · simp [List.append_assoc]
          · simp [Nat.add_comm]
        · rw [if_neg hex]
          simp only [absPairsMap, absPairsCount, List.map_cons, List.sum_cons,
            absRefStep, absRefCount, if_neg hurl, if_neg hex, renderPairs,
            renderRef, Prod.mk.injEq]
          constructor
          · simp [List.append_assoc]
          · simp

/-- Each reference occupies at least one character. -/
theorem renderPairs_length (ps : List (Text × FamRef)) (tailC : Text) :
    ps.length ≤ (renderPairs ps tailC).length := by
  induction ps with
  | nil => simp [renderPairs]
  | cons pr rest ih =>
    obtain ⟨c, r⟩ := pr
    rw [renderPairs]
    simp only [List.length_append, List.length_cons, renderRef, List.length_nil]
    simp at ih ⊢
    omega

/-- A well-behaved structured text contains no backtick. -/
theorem btick_notin_renderPairs (ps : List (Text × FamRef)) (tailC : Text)
    (hg : goodPairs ps = true) (ht : goodChunk tailC = true) :
    btick ∉ renderPairs ps tailC := by
  induction ps with
  | nil =>
    intro hmem
    exact (goodChunk_spec tailC ht btick hmem).1 rfl
  | cons pr rest ih =>
    obtain ⟨c, r⟩ := pr
    have hgs : goodPair (c, r) = true ∧ goodPairs rest = true := by
      simp only [goodPairs, List.all_cons, Bool.and_eq_true] at hg
      exact hg
    obtain ⟨hchunk, halt, htgt⟩ := goodPair_spec _ hgs.1
    intro hmem
    rw [renderPairs, List.append_assoc] at hmem
    rcases List.mem_append.mp hmem with h1 | h1
    · exact (goodChunk_spec c hchunk btick h1).1 rfl
    · rw [renderRef_append] at h1
      rcases List.mem_cons.mp h1 with h2 | h2
      · exact absurd h2 (by decide)
      rcases List.mem_cons.mp h2 with h3 | h3
      · exact absurd h3 (by decide)
      rcases List.mem_append.mp h3 with h4 | h4
      · exact (goodAlt_spec _ halt btick h4).1 rfl
      rcases List.mem_cons.mp h4 with h5 | h5
      · exact absurd h5 (by decide)
      rcases List.mem_cons.mp h5 with h6 | h6
      · exact absurd h6 (by decide)
      rcases List.mem_append.mp h6 with h7 | h7
      · exact (cleanTargetCh_spec btick ((goodTarget_spec _ htgt).2 btick h7)).2.1 rfl
      rcases List.mem_cons.mp h7 with h8 | h8
      · exact absurd h8 (by decide)
      · exact ih hgs.2 h8

/-- `_convert_images_in_text` on a well-behaved structured text rewrites
each reference by the per-reference step and counts the conversions. -/
theorem convertImages_pairs (fsE : Comps → Bool) (dir : Comps)
    (ps : List (Text × FamRef)) (tailC : Text)
    (hg : goodPairs ps = true) (ht : goodChunk tailC = true) :
    convertImagesInText fsE dir (renderPairs ps tailC)
      = (renderPairs (absPairsMap fsE dir ps) tailC, absPairsCount fsE dir ps) := by
  unfold convertImagesInText
  rw [protectSegments_id _ (btick_notin_renderPairs ps tailC hg ht)]
  simp only
  rw [convertLoop_pairs fsE dir ps tailC _ hg ht
    (by have := renderPairs_length ps tailC; omega)]
  rfl

/-- A non-dot rest fails `dotSplit`. -/
theorem dotSplit_none (post : Text) (hpost : post.head? ≠ some '.') :
    dotSplit post = none := by
  cases post with
  | nil => rfl
  | cons p r =>
    have hp : p ≠ '.' := fun h => hpost (by simp [h])
    unfold dotSplit
    split
    · rename_i heq
      injection heq with h1 _
      exact absurd h1 hp
    · rfl

/-- One failing step of the greedy prefix search. -/
theorem aLoop_step_fail (c : Char) (g post : Text) (hpost : post.head? ≠ some '.') :
    aLoop (c :: g) post = aLoop g (c :: post) := by
  conv_lhs => rw [aLoop]
  rw [dotSplit_none post hpost]
  simp

/-- The successful step of the greedy prefix search. -/
theorem aLoop_step_hit (c : Char) (g r : Text) (anchor : Text)
    (hws : ((c :: g).all fun d => ¬ isWs d) = true)
    (hext : tryExtAnchor r = some anchor) :
    aLoop (c :: g) ('.' :: r) = some anchor := by
  conv_lhs => rw [aLoop]
  rw [if_pos hws]
  rw [show dotSplit ('.' :: r) = tryExtAnchor r from rfl]
  simp [hext]

/-- Shifting dot-free characters from the prefix into the suffix. -/
theorem aLoop_shift (u : Text) : ∀ (g post : Text),
    (∀ c ∈ u, c ≠ '.') → post.head? ≠ some '.' →
    aLoop (u ++ g) post = aLoop g (u.reverse ++ post) := by
  induction u with
  | nil => intro g post _ _; simp
  | cons u0 u' ih =>
    intro g post hu hpost
    have h0 : (u0 :: post).head? ≠ some '.' := by
      simp only [List.head?_cons, ne_eq, Option.some.injEq]
      exact hu u0 (List.mem_cons_self u0 u')
    rw [List.cons_append, aLoop_step_fail u0 (u' ++ g) post hpost]
    rw [ih g (u0 :: post) (fun c hc => hu c (List.mem_cons_of_mem u0 hc)) h0]
    simp [List.reverse_cons, List.append_assoc]

/-- Head comparison failure for `isPre`. -/
theorem isPre_head_ne (p : Char) (ps : Text) (c : Char) (t : Text) (h : p ≠ c) :
    isPre (p :: ps) (c :: t) = false := by
  simp [isPre]
  intro hcon
  exact absurd hcon h

/-- The extension-anchor tail succeeds on a rendered link tail. -/
theorem tryExtAnchor_link (ext anchor : Text)
    (hext : ext = "md".data ∨ ext = "gfm".data ∨ ext = "markdown".data)
    (ha : anchor ≠ []) :
    tryExtAnchor (ext ++ '#' :: anchor) = some ('#' :: anchor) := by
  obtain ⟨a, as, rfl⟩ : ∃ c cs, anchor = c :: cs := by
    cases anchor with
    | nil => exact absurd rfl ha
    | cons c cs => exact ⟨c, cs, rfl⟩
  rcases hext with rfl | rfl | rfl <;> rfl

/-- Unfolding `tryStripMatch` at an opening parenthesis. -/
theorem tryStripMatch_paren (rest : Text) :
    tryStripMatch ('(' :: rest) =
      (match splitAtChar ')' rest with
       | some (content, after) =>
         (match aLoop content.reverse [] with
          | some anchor => some (anchor, after)
          | none => none)
       | none => none) := rfl

/-- The `strip_to_anchors` pattern matches a rendered link. -/
theorem tryStripMatch_link (path ext anchor s : Text)
    (hp1 : path ≠ [])
    (hpws : ∀ d ∈ path, ¬ isWs d = true)
    (hppar : ∀ d ∈ path, d ≠ ')')
    (hext : ext = "md".data ∨ ext = "gfm".data ∨ ext = "markdown".data)
    (ha1 : anchor ≠ [])
    (hapar : ∀ d ∈ anchor, d ≠ ')')
    (hadot : ∀ d ∈ anchor, d ≠ '.') :
    tryStripMatch ('(' :: ((path ++ '.' :: (ext ++ '#' :: anchor)) ++ ')' :: s))
      = some ('#' :: anchor, s) := by
  have hnm : ')' ∉ path ++ '.' :: (ext ++ '#' :: anchor) := by
    intro hmem
    rcases List.mem_append.mp hmem with h | h
    · exact hppar _ h rfl
    · rcases List.mem_cons.mp h with h | h
      · exact absurd h (by decide)
      · rcases List.mem_append.mp h with h | h
        · rcases hext with rfl | rfl | rfl <;> revert h <;> decide
        · rcases List.mem_cons.mp h with h | h
          · exact absurd h (by decide)
          · exact hapar _ h rfl
  have hsplit := splitAtChar_append ')' (path ++ '.' :: (ext ++ '#' :: anchor)) hnm s
  have hrev : (path ++ '.' :: (ext ++ '#' :: anchor)).reverse
      = (anchor.reverse ++ '#' :: ext.reverse) ++ ('.' :: path.reverse) := by
    simp [List.reverse_append, List.append_assoc]
  have hextdot : ∀ c ∈ ext.reverse, c ≠ '.' := by
    rcases hext with rfl | rfl | rfl <;> decide
  have hshift := aLoop_shift (anchor.reverse ++ '#' :: ext.reverse)
    ('.' :: path.reverse) []
    (by
      intro c hc
      rcases List.mem_append.mp hc with h1 | h2
      · exact hadot c (List.mem_reverse.mp h1)
      · rcases List.mem_cons.mp h2 with h3 | h4
        · subst h3; decide
        · exact hextdot c h4)
    (by simp)
  have hu : (anchor.reverse ++ '#' :: ext.reverse).reverse ++ ([] : Text)
      = ext ++ '#' :: anchor := by
    simp [List.reverse_append]
  have hfail : aLoop ('.' :: path.reverse) (ext ++ '#' :: anchor)
      = aLoop path.reverse ('.' :: (ext ++ '#' :: anchor)) := by
    apply aLoop_step_fail
    rcases hext with rfl | rfl | rfl <;> simp
  have hhit : aLoop path.reverse ('.' :: (ext ++ '#' :: anchor))
      = some ('#' :: anchor) := by
    cases hrev2 : path.reverse with
    | nil => exact absurd (by simpa using hrev2) hp1
    | cons c g =>
      apply aLoop_step_hit
      · rw [List.all_eq_true]
        intro d hd
        have : d ∈ path := by
          rw [← List.mem_reverse, hrev2]
          exact hd
        simp [hpws d this]
      · exact tryExtAnchor_link ext anchor hext ha1
  rw [tryStripMatch_paren]
  simp only [hsplit]
  rw [hrev, hshift, hu, hfail, hhit]

/-- The chunk walk: parenthesis-free characters pass through unchanged. -/
theorem stripLoop_chunk (c : Text) (hc : ∀ d ∈ c, d ≠ '(') :
    ∀ (fuel : Nat) (s : Text),
      stripToAnchorsLoop (c.length + fuel) (c ++ s) = c ++ stripToAnchorsLoop fuel s := by
  induction c with
  | nil => intro fuel s; simp
  | cons d t ih =>
    intro fuel s
    have hd : d ≠ '(' := hc d (List.mem_cons_self d t)
    rw [List.length_cons, List.cons_append,
      show t.length + 1 + fuel = (t.length + fuel) + 1 by omega]
    simp only [stripToAnchorsLoop, tryStripMatch_not_paren d _ hd]
    rw [ih (fun x hx => hc x (List.mem_cons_of_mem d hx)) fuel s]
    rfl

/-- The link step: one fuel unit rewrites a whole link. -/
theorem stripLoop_link (path ext anchor s : Text)
    (hp1 : path ≠ [])
    (hpws : ∀ d ∈ path, ¬ isWs d = true)
    (hppar : ∀ d ∈ path, d ≠ ')')
    (hext : ext = "md".data ∨ ext = "gfm".data ∨ ext = "markdown".data)
    (ha1 : anchor ≠ [])
    (hapar : ∀ d ∈ anchor, d ≠ ')')
    (hadot : ∀ d ∈ anchor, d ≠ '.') (fuel : Nat) :
    stripToAnchorsLoop (fuel + 1) ('(' :: ((path ++ '.' :: (ext ++ '#' :: anchor)) ++ ')' :: s))
      = '(' :: ('#' :: anchor) ++ ')' :: stripToAnchorsLoop fuel s := by
  simp only [stripToAnchorsLoop,
    tryStripMatch_link path ext anchor s hp1 hpws hppar hext ha1 hapar hadot]

/-- The pattern does not match a pure-anchor link. -/
theorem tryStripMatch_anchorOnly (anchor s : Text)
    (hapar : ∀ d ∈ anchor, d ≠ ')')
    (hadot : ∀ d ∈ anchor, d ≠ '.') :
    tryStripMatch ('(' :: (('#' :: anchor) ++ ')' :: s)) = none := by
  have hnm : ')' ∉ '#' :: anchor := by
    intro hmem
    rcases List.mem_cons.mp hmem with h | h
    · exact absurd h (by decide)
    · exact hapar _ h rfl
  have hsplit := splitAtChar_append ')' ('#' :: anchor) hnm s
  have hshift := aLoop_shift (('#' :: anchor).reverse) [] []
    (by
      intro c hc
      rcases List.mem_cons.mp (List.mem_reverse.mp hc) with h | h
      · subst h; decide
      · exact hadot c h)
    (by simp)
  rw [tryStripMatch_paren]
  simp only [hsplit]
  rw [show aLoop ('#' :: anchor).reverse [] = aLoop (('#' :: anchor).reverse ++ []) [] by simp]
  rw [hshift]
  simp [aLoop]

/-- The pure-anchor walk: a pure-anchor link passes through unchanged. -/
theorem stripLoop_anchorOnly (anchor s : Text)
    (hap1 : ∀ d ∈ anchor, d ≠ '(')
    (hapar : ∀ d ∈ anchor, d ≠ ')')
    (hadot : ∀ d ∈ anchor, d ≠ '.') (fuel : Nat) :
    stripToAnchorsLoop ((anchor.length + 3) + fuel) ('(' :: (('#' :: anchor) ++ ')' :: s))
      = '(' :: (('#' :: anchor) ++ ')' :: stripToAnchorsLoop fuel s) := by
  rw [show anchor.length + 3 + fuel = ((anchor.length + 2) + fuel) + 1 by omega]
  simp only [stripToAnchorsLoop, tryStripMatch_anchorOnly anchor s hapar hadot]
  have hchunk := stripLoop_chunk (('#' :: anchor) ++ [')'])
    (by
      intro d hd
      rcases List.mem_append.mp hd with h | h
      · rcases List.mem_cons.mp h with h | h
        · subst h; decide
        · exact hap1 d h
      · simp at h
        subst h; decide)
    fuel s
  have hlen : (('#' :: anchor) ++ [')']).length = anchor.length + 2 := by simp
  rw [hlen] at hchunk
  rw [show (('#' :: anchor) ++ [')']) ++ s = ('#' :: anchor) ++ ')' :: s by
    simp [List.append_assoc]] at hchunk
  rw [hchunk]
  simp [List.append_assoc]

/-- Each TOC step preserves well-behavedness. -/
theorem goodTocItem_tocStep (it : TocItem) (h : goodTocItem it = true) :
    goodTocItem (tocStep it) = true := by
  cases it with
  | chunk c => exact h
  | anchorOnly anchor => exact h
  | link path ext anchor =>
    simp only [goodTocItem, Bool.and_eq_true] at h
    exact h.2

/-- The `strip_to_anchors` loop rewrites a structured TOC text itemwise. -/
theorem stripLoop_render (items : List TocItem) (hg : goodTocItems items = true) :
    ∀ fuel, stripToAnchorsLoop ((renderToc items).length + fuel) (renderToc items)
      = renderToc (items.map tocStep) := by
  induction items with
  | nil => intro fuel; simp [renderToc, stripLoop_nil]
  | cons it rest ih =>
    intro fuel
    simp only [goodTocItems, List.all_cons, Bool.and_eq_true] at hg
    have hg2 : goodTocItems rest = true := hg.2
    have hg1 := hg.1
    cases it with
    | chunk c =>
      have hc : ∀ d ∈ c, d ≠ '(' := by
        simp only [goodTocItem, List.all_eq_true, decide_eq_true_eq] at hg1
        exact fun d hd => (hg1 d hd).1
      have hform : renderToc (.chunk c :: rest) = c ++ renderToc rest := by
        simp [renderToc, renderTocItem]
      rw [hform, show (c ++ renderToc rest).length + fuel
          = c.length + ((renderToc rest).length + fuel) by
        simp [List.length_append]; omega]
      rw [stripLoop_chunk c hc ((renderToc rest).length + fuel) (renderToc rest)]
      rw [ih hg2 fuel]
      simp [renderToc, renderTocItem, tocStep]
    | link path ext anchor =>
      simp only [goodTocItem, Bool.and_eq_true, decide_eq_true_eq,
        List.all_eq_true] at hg1
      obtain ⟨⟨⟨hp1, hpall⟩, hext⟩, ha1, haall⟩ := hg1
      have hform : renderToc (.link path ext anchor :: rest)
          = '(' :: ((path ++ '.' :: (ext ++ '#' :: anchor)) ++ ')' :: renderToc rest) := by
        simp [renderToc, renderTocItem, List.append_assoc]
      rw [hform]
      rw [show ('(' :: ((path ++ '.' :: (ext ++ '#' :: anchor)) ++ ')' :: renderToc rest)).length + fuel
          = ((renderToc rest).length + (path.length + ext.length + anchor.length + 3 + fuel)) + 1 by
        simp [List.length_append]; omega]
      rw [stripLoop_link path ext anchor (renderToc rest) hp1
        (fun d hd => (hpall d hd).1)
        (fun d hd => (hpall d hd).2.2)
        hext ha1
        (fun d hd => (haall d hd).2.1)
        (fun d hd => (haall d hd).2.2)
        ((renderToc rest).length + (path.length + ext.length + anchor.length + 3 + fuel))]
      rw [ih hg2 (path.length + ext.length + anchor.length + 3 + fuel)]
      simp [renderToc, renderTocItem, tocStep, List.append_assoc]
    | anchorOnly anchor =>
      simp only [goodTocItem, Bool.and_eq_true, decide_eq_true_eq,
        List.all_eq_true] at hg1
      obtain ⟨ha1, haall⟩ := hg1
      have hform : renderToc (.anchorOnly anchor :: rest)
          = '(' :: (('#' :: anchor) ++ ')' :: renderToc rest) := by
        simp [renderToc, renderTocItem, List.append_assoc]
      rw [hform]
      rw [show ('(' :: (('#' :: anchor) ++ ')' :: renderToc rest)).length + fuel
          = (anchor.length + 3) + ((renderToc rest).length + fuel) by
        simp [List.length_append]; omega]
      rw [stripLoop_anchorOnly anchor (renderToc rest)
        (fun d hd => (haall d hd).1)
        (fun d hd => (haall d hd).2.1)
        (fun d hd => (haall d hd).2.2)
        ((renderToc rest).length + fuel)]
      rw [ih hg2 fuel]
      simp [renderToc, renderTocItem, tocStep, List.append_assoc]

/-! ## Claim C4 (amended part) -/

/-- Claim C4 (amended): on structured TOC texts (prose without
parentheses, links `(path.ext#anchor)` with whitespace-free paths and
dot-free anchors, and pure-anchor links), `strip_to_anchors` rewrites each
link to its pure anchor, leaves pure-anchor links unchanged, and is
idempotent; unrestricted idempotence fails (see the counterexample). -/
theorem c4_toc_amended (items : List TocItem) (hg : goodTocItems items = true) :
    strip_to_anchors (renderToc items) = renderToc (items.map tocStep) ∧
    strip_to_anchors (renderToc (items.map tocStep)) = renderToc (items.map tocStep) := by
  have hmain : ∀ (its : List TocItem), goodTocItems its = true →
      strip_to_anchors (renderToc its) = renderToc (its.map tocStep) := by
    intro its hgood
    unfold strip_to_anchors
    exact stripLoop_render its hgood 1
  have hgood2 : goodTocItems (items.map tocStep) = true := by
    simp only [goodTocItems, List.all_eq_true] at hg ⊢
    intro it hit
    obtain ⟨it0, hit0, rfl⟩ := List.mem_map.mp hit
    exact goodTocItem_tocStep it0 (hg it0 hit0)
  have hidem : (items.map tocStep).map tocStep = items.map tocStep := by
    rw [List.map_map]
    apply List.map_congr_left
    intro a _
    cases a <;> rfl
  refine ⟨hmain items hg, ?_⟩
  rw [hmain (items.map tocStep) hgood2, hidem]

/-- Witness for the amended claim C4 on a concrete TOC. -/
theorem c4_toc_amended_witness :
    strip_to_anchors (renderToc [TocItem.chunk "See ".data,
        TocItem.link "chapters/01".data "md".data "intro".data,
        TocItem.chunk " and ".data, TocItem.anchorOnly "top".data])
      = renderToc ([TocItem.chunk "See ".data,
        TocItem.link "chapters/01".data "md".data "intro".data,
        TocItem.chunk " and ".data, TocItem.anchorOnly "top".data].map tocStep) ∧
    strip_to_anchors (renderToc ([TocItem.chunk "See ".data,
        TocItem.link "chapters/01".data "md".data "intro".data,
        TocItem.chunk " and ".data, TocItem.anchorOnly "top".data].map tocStep))
      = renderToc ([TocItem.chunk "See ".data,
        TocItem.link "chapters/01".data "md".data "intro".data,
        TocItem.chunk " and ".data, TocItem.anchorOnly "top".data].map tocStep) :=
  c4_toc_amended _ (by decide)

/-! ## Counterexamples for the corrected claims -/

/-- Counterexample for claim C1: an angle-bracketed relative target that
resolves to an existing asset is not restored byte-for-byte by
absolute-then-relative conversion (the angle brackets are dropped). -/
theorem c1_round_trip_counterexample :
    (convertImagesInText fsX exDir ce1text).1 = "![a](/assets/x.png)".data ∧
    convert_paths_in_text exAssets exDir (convertImagesInText fsX exDir ce1text).1
      = "![a](../../assets/x.png)".data ∧
    convert_paths_in_text exAssets exDir (convertImagesInText fsX exDir ce1text).1
      ≠ ce1text := by
  refine ⟨by decide, by decide, by decide⟩

/-- Counterexample for claim C2: the absolute-to-relative pass has no
code-region protection and rewrites an image reference inside a fenced
code block. -/
theorem c2_code_fence_counterexample :
    convert_paths_in_text exAssets exDir ce2text
      = tick3 ++ "\n![a](../../assets/x.png)\n".data ++ tick3 ∧
    convert_paths_in_text exAssets exDir ce2text ≠ ce2text := by
  refine ⟨by decide, by decide⟩

/-- Counterexample for claim C3: the absolute pass is not idempotent when
the text contains literal protection placeholders (`{{FENCE_0}}`,
`{{FENCE_1}}`): the restore step duplicates fence content, and a second
run duplicates it again. -/
theorem c3_idempotence_counterexample :
    (convertImagesInText fsNone exDir
        (convertImagesInText fsNone exDir ce3text).1).1
      ≠ (convertImagesInText fsNone exDir ce3text).1 := by
  decide

/-- Counterexample for claim C5: a text whose only image reference does
not resolve is still changed by the absolute pass (placeholder collision),
with a converted count of zero. -/
theorem c5_nonexistent_counterexample :
    (convertImagesInText fsNone exDir ce5text).2 = 0 ∧
    (convertImagesInText fsNone exDir ce5text).1 ≠ ce5text := by
  refine ⟨by decide, by decide⟩

/-- Counterexample for claim C4: `strip_to_anchors` is not idempotent (a
whitespace-separated inner link survives the first pass inside the
rewritten anchor and is rewritten by the second), and a pure-anchor link
whose anchor contains `.md#` is itself rewritten. -/
theorem c4_idempotence_counterexample :
    strip_to_anchors (strip_to_anchors ce4text) ≠ strip_to_anchors ce4text ∧
    strip_to_anchors "(#a.md#b)".data ≠ "(#a.md#b)".data := by
  refine ⟨by decide, by decide⟩

/-- Folding clean-or-`..` components over a clean accumulator stays clean. -/
theorem cleanComps_foldl (parts : Comps) :
    ∀ acc, cleanComps acc = true →
      (∀ c ∈ parts, c = "..".data ∨ cleanComp c = true) →
      cleanComps ((parts.foldl applyComp acc)) = true := by
  induction parts with
  | nil => intro acc hacc _; simpa using hacc
  | cons c t ih =>
    intro acc hacc hp
    rw [List.foldl_cons]
    apply ih
    · unfold applyComp
      split
      · simp only [cleanComps, List.all_eq_true] at hacc ⊢
        intro x hx
        exact hacc x ((List.dropLast_sublist acc).subset hx)
      · simp only [cleanComps, List.all_eq_true] at hacc ⊢
        intro x hx
        rcases List.mem_append.mp hx with h1 | h1
        · exact hacc x h1
        · next hne =>
          rcases hp c (by simp) with h2 | h2
          · exact absurd h2 hne
          · simp at h1
            subst h1
            simpa using h2
    · exact fun d hd => hp d (List.mem_cons_of_mem c hd)

/-- Every character of a split piece occurs in the text and is not `/`. -/
theorem splitOnSlash_chars (s : Text) :
    ∀ c ∈ splitOnSlash s, ∀ d ∈ c, d ∈ s ∧ d ≠ '/' := by
  induction s with
  | nil =>
    intro c hc d hd
    rw [splitOnSlash] at hc
    simp at hc
    subst hc
    simp at hd
  | cons e t ih =>
    intro c hc d hd
    rw [splitOnSlash] at hc
    by_cases he : e = '/'
    · rw [if_pos he] at hc
      rcases List.mem_cons.mp hc with h1 | h1
      · subst h1; simp at hd
      · have := ih c h1 d hd
        exact ⟨List.mem_cons_of_mem e this.1, this.2⟩
    · rw [if_neg he] at hc
      rcases hsp : splitOnSlash t with _ | ⟨h0, r⟩
      · rw [hsp] at hc
        simp at hc
        subst hc
        simp at hd
        subst hd
        exact ⟨by simp, he⟩
      · rw [hsp] at hc
        rcases List.mem_cons.mp hc with h1 | h1
        · subst h1
          rcases List.mem_cons.mp hd with h2 | h2
          · subst h2; exact ⟨by simp, he⟩
          · have := ih h0 (hsp ▸ List.mem_cons_self h0 r) d h2
            exact ⟨List.mem_cons_of_mem e this.1, this.2⟩
        · have := ih c (hsp ▸ List.mem_cons_of_mem h0 h1) d hd
          exact ⟨List.mem_cons_of_mem e this.1, this.2⟩

/-- Parts of a parsed clean-character target are `..` or clean. -/
theorem splitPath_parts_clean (t : Text)
    (ht : ∀ d ∈ t, cleanTargetCh d = true) :
    ∀ c ∈ splitPath t, c = "..".data ∨ cleanComp c = true := by
  intro c hc
  unfold splitPath at hc
  rw [List.mem_filter] at hc
  obtain ⟨hmem, hcond⟩ := hc
  simp at hcond
  by_cases hdd : c = "..".data
  · exact Or.inl hdd
  · refine Or.inr ?_
    simp only [cleanComp, Bool.and_eq_true, decide_eq_true_eq, List.all_eq_true]
    refine ⟨hcond.1, hcond.2, hdd, fun d hd => ?_⟩
    have := splitOnSlash_chars t c hmem d hd
    exact ⟨ht d this.1, this.2⟩

/-- Resolving a clean-character relative target against a clean directory
yields clean components. -/
theorem cleanComps_resolveRel (dir : Comps) (hdir : cleanComps dir = true)
    (t : Text) (ht : ∀ d ∈ t, cleanTargetCh d = true) :
    cleanComps (resolveRel dir t) = true := by
  unfold resolveRel
  exact cleanComps_foldl _ dir hdir (splitPath_parts_clean t ht)

/-- Resolving a clean-character absolute target yields clean components. -/
theorem cleanComps_resolveAbsStr (t : Text)
    (ht : ∀ d ∈ t, cleanTargetCh d = true) :
    cleanComps (resolveAbsStr t) = true := by
  unfold resolveAbsStr
  exact cleanComps_foldl _ [] (by rfl) (splitPath_parts_clean t ht)

/-- The absolute-conversion step keeps the alt text. -/
theorem absRefStep_alt (fsE : Comps → Bool) (dir : Comps) (r : FamRef) :
    (absRefStep fsE dir r).alt = r.alt := by
  unfold absRefStep
  split_ifs <;> rfl

/-- The absolute-conversion step is idempotent on each reference. -/
theorem absRefStep_idem (fsE : Comps → Bool) (dir : Comps) (r : FamRef) :
    absRefStep fsE dir (absRefStep fsE dir r) = absRefStep fsE dir r := by
  unfold absRefStep
  by_cases hurl : isUrlLike r.target ∨ isAbsPath r.target
  · rw [if_pos hurl, if_pos hurl]
  · rw [if_neg hurl]
    by_cases hex : fsE (resolveRel dir r.target) = true
    · rw [if_pos hex]
      rw [if_pos (Or.inr (renderAbs_isAbs (resolveRel dir r.target)))]
    · rw [if_neg hex, if_neg hurl, if_neg hex]

/-- A stepped reference is never converted again. -/
theorem absRefCount_stepped (fsE : Comps → Bool) (dir : Comps) (r : FamRef) :
    absRefCount fsE dir (absRefStep fsE dir r) = 0 := by
  unfold absRefStep absRefCount
  by_cases hurl : isUrlLike r.target ∨ isAbsPath r.target
  · rw [if_pos hurl, if_pos hurl]
  · rw [if_neg hurl]
    by_cases hex : fsE (resolveRel dir r.target) = true
    · rw [if_pos hex]
      rw [if_pos (Or.inr (renderAbs_isAbs (resolveRel dir r.target)))]
    · rw [if_neg hex, if_neg hurl, if_neg hex]

/-- The absolute-conversion step preserves reference goodness when the
file directory is clean. -/
theorem goodTarget_absRefStep (fsE : Comps → Bool) (dir : Comps)
    (hdir : cleanComps dir = true) (r : FamRef)
    (h : goodTarget r.target = true) :
    goodTarget (absRefStep fsE dir r).target = true := by
  unfold absRefStep
  by_cases hurl : isUrlLike r.target ∨ isAbsPath r.target
  · rw [if_pos hurl]; exact h
  · rw [if_neg hurl]
    by_cases hex : fsE (resolveRel dir r.target) = true
    · rw [if_pos hex]
      exact goodTarget_renderAbs _
        (cleanComps_resolveRel dir hdir r.target (goodTarget_spec _ h).2)
    · rw [if_neg hex]; exact h

/-- Mapping the absolute step preserves structured-text goodness. -/
theorem goodPairs_absPairsMap (fsE : Comps → Bool) (dir : Comps)
    (hdir : cleanComps dir = true) (ps : List (Text × FamRef))
    (hg : goodPairs ps = true) :
    goodPairs (absPairsMap fsE dir ps) = true := by
  induction ps with
  | nil => rfl
  | cons pr rest ih =>
    obtain ⟨c, r⟩ := pr
    have hgs : goodPair (c, r) = true ∧ goodPairs rest = true := by
      simp only [goodPairs, List.all_cons, Bool.and_eq_true] at hg
      exact hg
    obtain ⟨hchunk, halt, htgt⟩ := goodPair_spec _ hgs.1
    simp only [absPairsMap, List.map_cons, goodPairs, List.all_cons,
      Bool.and_eq_true]
    constructor
    · simp only [goodPair, Bool.and_eq_true, decide_eq_true_eq]
      refine ⟨hchunk, ?_, goodTarget_absRefStep fsE dir hdir r htgt⟩
      rw [absRefStep_alt]
      exact halt
    · exact ih hgs.2

/-- Mapping the absolute step twice equals mapping it once. -/
theorem absPairsMap_idem (fsE : Comps → Bool) (dir : Comps)
    (ps : List (Text × FamRef)) :
    absPairsMap fsE dir (absPairsMap fsE dir ps) = absPairsMap fsE dir ps := by
  unfold absPairsMap
  rw [List.map_map]
  apply List.map_congr_left
  intro p _
  simp [absRefStep_idem]

/-- The second absolute pass converts nothing. -/
theorem absPairsCount_stepped (fsE : Comps → Bool) (dir : Comps)
    (ps : List (Text × FamRef)) :
    absPairsCount fsE dir (absPairsMap fsE dir ps) = 0 := by
  unfold absPairsCount absPairsMap
  rw [List.map_map]
  induction ps with
  | nil => rfl
  | cons pr rest ih =>
    rw [List.map_cons, List.sum_cons, ih]
    simp [absRefCount_stepped]

/-- The title-or-paren tail matches an immediate closing parenthesis with
an empty title. -/
theorem tryTitleParen_close (rest : Text) :
    tryTitleParen (')' :: rest) = some ([], rest) := rfl

/-- The title-or-paren tail fails on a clean target character. -/
theorem tryTitleParen_none (c : Char) (t : Text) (hws : isWs c = false)
    (hc : c ≠ ')') : tryTitleParen (c :: t) = none := by
  have h1 : (c :: t).takeWhile isWs = [] := by
    rw [List.takeWhile_cons_of_neg]
    simp [hws]
  have h2 : (c :: t).dropWhile isWs = c :: t := by
    rw [List.dropWhile_cons_of_neg]
    simp [hws]
  simp only [tryTitleParen, h1, h2, if_pos]
  split
  · next heq =>
    rw [List.cons.injEq] at heq
    exact absurd heq.1 hc
  · rfl

/-- The lazy bare target absorbs a clean text up to the closing paren. -/
theorem bareLazy_clean (s : Text) (hs : ∀ c ∈ s, cleanTargetCh c = true)
    (rest : Text) :
    ∀ acc, bareLazy acc (s ++ ')' :: rest) = some (acc ++ s, [], rest) := by
  induction s with
  | nil =>
    intro acc
    rw [List.nil_append, bareLazy, tryTitleParen_close rest]
    simp
  | cons c t ih =>
    intro acc
    have hc := cleanTargetCh_spec c (hs c (by simp))
    have hcp : c ≠ ')' := hc.2.2.2.2.2.1
    rw [List.cons_append, bareLazy,
      tryTitleParen_none c (t ++ ')' :: rest) hc.1 hcp]
    dsimp only
    rw [if_neg hcp]
    rw [ih (fun d hd => hs d (List.mem_cons_of_mem c hd)) (acc ++ [c])]
    simp

/-- The angle target alternative fails without a leading `<`. -/
theorem tryAngleTarget_none (s : Text) (h : s.head? ≠ some '<') :
    tryAngleTarget s = none := by
  cases s with
  | nil => rfl
  | cons c t =>
    simp only [List.head?_cons, ne_eq, Option.some.injEq] at h
    unfold tryAngleTarget
    split
    · next u heq =>
      rw [List.cons.injEq] at heq
      exact absurd heq.1 h
    · rfl

/-- The target alternatives at a clean target before the closing paren. -/
theorem tryTargetAt_clean (tgt : Text) (h : goodTarget tgt = true)
    (rest : Text) : tryTargetAt (tgt ++ ')' :: rest) = some (tgt, [], rest) := by
  obtain ⟨hne, hcl⟩ := goodTarget_spec tgt h
  obtain ⟨c, u, hcu⟩ := List.exists_cons_of_ne_nil hne
  subst hcu
  have hc := cleanTargetCh_spec c (hcl c (by simp))
  rw [List.cons_append]
  unfold tryTargetAt
  rw [tryAngleTarget_none _ (by simp [hc.2.2.1])]
  dsimp only
  rw [if_neg hc.2.2.2.2.2.1]
  rw [bareLazy_clean u (fun d hd => hcl d (List.mem_cons_of_mem c hd)) rest [c]]
  rfl

/-- The greedy gap loop returns an immediate target hit. -/
theorem gapLoop_hit (gapRev rem : Text) (p : Text × Text × Text)
    (h : tryTargetAt rem = some p) : gapLoop gapRev rem = some p := by
  cases gapRev with
  | nil => rw [gapLoop, h]
  | cons c g => rw [gapLoop, h]

/-- `MD_LINK_RE` does not match at a skip position. -/
theorem tryMdMatch_skip (d : Char) (t : Text) (hd : d ≠ '[')
    (hnext : d = '!' → t.head? ≠ some '[') :
    tryMdMatch (d :: t) = none := by
  simp only [tryMdMatch]
  split
  · next heq =>
    rw [List.cons.injEq] at heq
    obtain ⟨hd1, ht1⟩ := heq
    have := hnext hd1
    rw [ht1] at this
    simp at this
  · next heq =>
    rw [List.cons.injEq] at heq
    exact absurd heq.1 hd
  · rfl

/-- `MD_LINK_RE` matches a well-formed image reference with a clean
target: bare lazy target, no gap, no title. -/
theorem tryMdMatch_ref (alt tgt rest : Text) (halt : ']' ∉ alt)
    (htgt : goodTarget tgt = true) :
    tryMdMatch ('!' :: '[' :: (alt ++ (']' :: '(' :: (tgt ++ (')' :: rest)))))
      = some ⟨'!' :: '[' :: (alt ++ "](".data), tgt, [], rest⟩ := by
  obtain ⟨hne, hcl⟩ := goodTarget_spec tgt htgt
  obtain ⟨c, u, hcu⟩ := List.exists_cons_of_ne_nil hne
  have hcmem : c ∈ tgt := hcu ▸ List.mem_cons_self c u
  have hcws : isWs c = false := (cleanTargetCh_spec c (hcl c hcmem)).1
  have htake : (tgt ++ ')' :: rest).takeWhile isWs = [] := by
    rw [hcu, List.cons_append, List.takeWhile_cons_of_neg]
    simp [hcws]
  have hdrop : (tgt ++ ')' :: rest).dropWhile isWs = tgt ++ ')' :: rest := by
    rw [hcu, List.cons_append, List.dropWhile_cons_of_neg]
    simp [hcws]
  simp only [tryMdMatch]
  rw [splitAtChar_append ']' alt halt ('(' :: (tgt ++ (')' :: rest)))]
  show (match gapLoop ((tgt ++ ')' :: rest).takeWhile isWs).reverse
      ((tgt ++ ')' :: rest).dropWhile isWs) with
    | some (target, title, rest2) =>
      some (⟨['!'] ++ '[' :: alt ++ "](".data, target, title, rest2⟩ : MdMatch)
    | none => none)
    = some ⟨'!' :: '[' :: (alt ++ "](".data), tgt, [], rest⟩
  rw [htake, hdrop, List.reverse_nil]
  rw [gapLoop_hit [] _ _ (tryTargetAt_clean tgt htgt rest)]
  rfl

/-- `convert_target_to_relative` returns a clean non-absolute target raw. -/
theorem ctr_raw_of_not_abs (assets dir : Comps) (t : Text)
    (hcl : ∀ d ∈ t, cleanTargetCh d = true) (hne : t ≠ [])
    (habs : isAbsPath t = false) :
    convert_target_to_relative assets dir t = t := by
  unfold convert_target_to_relative
  rw [strip_of_wsFree t (wsFree_of_clean t hcl)]
  have hang : isPre "<".data t = false := by
    obtain ⟨c, u, hcu⟩ := List.exists_cons_of_ne_nil hne
    exact isPre_lt_head t c u hcu
      (cleanTargetCh_spec c (hcl c (hcu ▸ List.mem_cons_self c u))).2.2.1
  rw [stripAnglesPair_id t hang]
  dsimp only
  rw [if_pos (by simp [habs])]

/-- `convert_target_to_relative` on a good target: raw, or the relative
form of the resolved absolute target. -/
theorem ctr_cases (assets dir : Comps) (t : Text) (ht : goodTarget t = true) :
    convert_target_to_relative assets dir t = t
      ∨ convert_target_to_relative assets dir t
          = relpathComps (resolveAbsStr t) dir := by
  obtain ⟨hne, hcl⟩ := goodTarget_spec t ht
  unfold convert_target_to_relative
  rw [strip_of_wsFree t (wsFree_of_clean t hcl)]
  have hang : isPre "<".data t = false := by
    obtain ⟨c, u, hcu⟩ := List.exists_cons_of_ne_nil hne
    exact isPre_lt_head t c u hcu
      (cleanTargetCh_spec c (hcl c (hcu ▸ List.mem_cons_self c u))).2.2.1
  rw [stripAnglesPair_id t hang]
  dsimp only
  by_cases hcond : (isUrlOrAnchor t || !isAbsPath t) = true
  · rw [if_pos hcond]
    exact Or.inl rfl
  · rw [if_neg hcond]
    by_cases hin : (!insideAssets assets t) = true
    · rw [if_pos hin]
      exact Or.inl rfl
    · rw [if_neg hin]
      exact Or.inr rfl

/-- `convert_target_to_relative` preserves target goodness. -/
theorem goodTarget_ctr (assets dir : Comps) (t : Text)
    (ht : goodTarget t = true) :
    goodTarget (convert_target_to_relative assets dir t) = true := by
  rcases ctr_cases assets dir t ht with h | h
  · rw [h]; exact ht
  · rw [h]
    exact goodTarget_relpath _ dir
      (cleanComps_resolveAbsStr t (goodTarget_spec t ht).2)

/-- `convert_target_to_relative` is idempotent on good targets. -/
theorem ctr_idem (assets dir : Comps) (t : Text) (ht : goodTarget t = true) :
    convert_target_to_relative assets dir
        (convert_target_to_relative assets dir t)
      = convert_target_to_relative assets dir t := by
  rcases ctr_cases assets dir t ht with h | h
  · rw [h]
    exact h
  · rw [h]
    have hcl := cleanComps_resolveAbsStr t (goodTarget_spec t ht).2
    exact ctr_raw_of_not_abs assets dir _ (relpath_clean _ dir hcl)
      (relpath_ne_nil _ dir hcl) (relpath_not_abs _ dir hcl)

/-- The relative step keeps the alt text. -/
theorem relRefStep_alt (assets dir : Comps) (r : FamRef) :
    (relRefStep assets dir r).alt = r.alt := rfl

/-- The relative step is idempotent on good references. -/
theorem relRefStep_idem (assets dir : Comps) (r : FamRef)
    (h : goodTarget r.target = true) :
    relRefStep assets dir (relRefStep assets dir r) = relRefStep assets dir r := by
  unfold relRefStep
  rw [FamRef.mk.injEq]
  exact ⟨rfl, ctr_idem assets dir r.target h⟩

/-- Mapping the relative step preserves structured-text goodness. -/
theorem goodPairs_relPairsMap (assets dir : Comps) (ps : List (Text × FamRef))
    (hg : goodPairs ps = true) :
    goodPairs (relPairsMap assets dir ps) = true := by
  induction ps with
  | nil => rfl
  | cons pr rest ih =>
    obtain ⟨c, r⟩ := pr
    have hgs : goodPair (c, r) = true ∧ goodPairs rest = true := by
      simp only [goodPairs, List.all_cons, Bool.and_eq_true] at hg
      exact hg
    obtain ⟨hchunk, halt, htgt⟩ := goodPair_spec _ hgs.1
    simp only [relPairsMap, List.map_cons, goodPairs, List.all_cons,
      Bool.and_eq_true]
    constructor
    · simp only [goodPair, Bool.and_eq_true, decide_eq_true_eq]
      exact ⟨hchunk, halt, goodTarget_ctr assets dir r.target htgt⟩
    · exact ih hgs.2

/-- Mapping the relative step twice equals mapping it once. -/
theorem relPairsMap_idem (assets dir : Comps) (ps : List (Text × FamRef))
    (hg : goodPairs ps = true) :
    relPairsMap assets dir (relPairsMap assets dir ps)
      = relPairsMap assets dir ps := by
  induction ps with
  | nil => rfl
  | cons pr rest ih =>
    obtain ⟨c, r⟩ := pr
    have hgs : goodPair (c, r) = true ∧ goodPairs rest = true := by
      simp only [goodPairs, List.all_cons, Bool.and_eq_true] at hg
      exact hg
    obtain ⟨hchunk, halt, htgt⟩ := goodPair_spec _ hgs.1
    have h1 := relRefStep_idem assets dir r htgt
    have h2 := ih hgs.2
    simp only [relPairsMap, List.map_cons] at h2 ⊢
    rw [h1, h2]

/-- `mdSubLoop` leaves a plain chunk unchanged. -/
theorem mdSubLoop_chunk_none (assets dir : Comps) (c : Text)
    (hc : goodChunk c = true) : ∀ fuel, mdSubLoop assets dir fuel c = c := by
  induction c with
  | nil => intro fuel; cases fuel <;> rfl
  | cons d t ih =>
    intro fuel
    cases fuel with
    | zero => rfl
    | succ fuel =>
      have hd := goodChunk_spec _ hc d (List.mem_cons_self d t)
      have hnext : d = '!' → t.head? ≠ some '[' := by
        intro _
        cases t with
        | nil => simp
        | cons e u => simp [(goodChunk_spec _ hc e (by simp)).2.1]
      have hct : goodChunk t = true := by
        simp only [goodChunk, List.all_cons, Bool.and_eq_true] at hc
        exact hc.2
      rw [mdSubLoop, tryMdMatch_skip d t hd.2.1 hnext, ih hct fuel]

/-- `mdSubLoop` walks across a plain chunk. -/
theorem mdSubLoop_chunk (assets dir : Comps) (s : Text)
    (hs : s.head? ≠ some '[') (c : Text) (hc : goodChunk c = true) :
    ∀ fuel, mdSubLoop assets dir (c.length + fuel) (c ++ s)
      = c ++ mdSubLoop assets dir fuel s := by
  induction c with
  | nil => intro fuel; simp
  | cons d t ih =>
    intro fuel
    have hd := goodChunk_spec _ hc d (List.mem_cons_self d t)
    have hnext : d = '!' → (t ++ s).head? ≠ some '[' := by
      intro _
      cases t with
      | nil => simpa using hs
      | cons e u => simp [(goodChunk_spec _ hc e (by simp)).2.1]
    have hct : goodChunk t = true := by
      simp only [goodChunk, List.all_cons, Bool.and_eq_true] at hc
      exact hc.2
    have hlen : (d :: t).length + fuel = (t.length + fuel) + 1 := by
      simp only [List.length_cons]
      omega
    rw [hlen, List.cons_append, mdSubLoop,
      tryMdMatch_skip d (t ++ s) hd.2.1 hnext, ih hct fuel]
    rfl

/-- `mdSubLoop` rewrites a good reference and continues after it. -/
theorem mdSubLoop_ref (assets dir : Comps) (r : FamRef) (X : Text)
    (fuel : Nat) (halt : goodAlt r.alt = true)
    (htgt : goodTarget r.target = true) :
    mdSubLoop assets dir (fuel + 1) (renderRef r ++ X)
      = renderRef (relRefStep assets dir r) ++ mdSubLoop assets dir fuel X := by
  rw [renderRef_append, mdSubLoop]
  rw [tryMdMatch_ref r.alt r.target X
    (fun hm => (goodAlt_spec _ halt ']' hm).2.2.1 rfl) htgt]
  rw [renderRef_append]
  dsimp only [relRefStep]
  simp only [List.append_assoc, List.nil_append, List.append_nil,
    List.cons_append]

/-- `MD_LINK_RE.sub` acts reference-by-reference on a structured text. -/
theorem mdSubLoop_pairs (assets dir : Comps) (ps : List (Text × FamRef)) :
    ∀ (tailC : Text) (fuel : Nat), goodPairs ps = true →
      goodChunk tailC = true →
      mdSubLoop assets dir (famFuel ps + fuel) (renderPairs ps tailC)
        = renderPairs (relPairsMap assets dir ps) tailC := by
  induction ps with
  | nil =>
    intro tailC fuel _ ht
    rw [renderPairs, mdSubLoop_chunk_none assets dir tailC ht]
    rfl
  | cons pr rest ih =>
    intro tailC fuel hg ht
    obtain ⟨chunk, r⟩ := pr
    have hgs : goodPair (chunk, r) = true ∧ goodPairs rest = true := by
      simp only [goodPairs, List.all_cons, Bool.and_eq_true] at hg
      exact hg
    obtain ⟨hchunk, halt, htgt⟩ := goodPair_spec _ hgs.1
    have hhead : (renderRef r ++ renderPairs rest tailC).head? ≠ some '[' := by
      rw [renderRef_append]
      simp
    have hlen : famFuel ((chunk, r) :: rest) + fuel
        = chunk.length + ((famFuel rest + fuel) + 1) := by
      rw [famFuel]
      omega
    rw [renderPairs, List.append_assoc, hlen]
    rw [mdSubLoop_chunk assets dir (renderRef r ++ renderPairs rest tailC)
      hhead chunk hchunk ((famFuel rest + fuel) + 1)]
    rw [mdSubLoop_ref assets dir r (renderPairs rest tailC)
      (famFuel rest + fuel) halt htgt]
    rw [ih tailC fuel hgs.2 ht]
    simp [relPairsMap, renderPairs, List.append_assoc]

/-- The HTML regexes do not match at a skip position. -/
theorem tryHtmlMatch_skip (word attr : Text) (c : Char) (t : Text)
    (hc : c ≠ '<') : tryHtmlMatch word attr (c :: t) = none := by
  unfold tryHtmlMatch
  split
  · next u heq =>
    rw [List.cons.injEq] at heq
    exact absurd heq.1 hc
  · rfl

/-- The HTML substitution is the identity on `<`-free text. -/
theorem htmlSubLoop_id (assets dir : Comps) (word attr : Text) (s : Text)
    (hs : '<' ∉ s) : ∀ fuel, htmlSubLoop assets dir word attr fuel s = s := by
  induction s with
  | nil => intro fuel; cases fuel <;> rfl
  | cons c t ih =>
    intro fuel
    cases fuel with
    | zero => rfl
    | succ fuel =>
      have hc : c ≠ '<' := fun h => hs (h ▸ List.mem_cons_self c t)
      rw [htmlSubLoop, tryHtmlMatch_skip word attr c t hc,
        ih (fun h => hs (List.mem_cons_of_mem c h)) fuel]

/-- A well-behaved structured text contains no `<`. -/
theorem lt_notin_renderPairs (ps : List (Text × FamRef)) (tailC : Text)
    (hg : goodPairs ps = true) (ht : goodChunk tailC = true) :
    '<' ∉ renderPairs ps tailC := by
  induction ps with
  | nil =>
    intro hmem
    exact (goodChunk_spec tailC ht '<' hmem).2.2 rfl
  | cons pr rest ih =>
    obtain ⟨c, r⟩ := pr
    have hgs : goodPair (c, r) = true ∧ goodPairs rest = true := by
      simp only [goodPairs, List.all_cons, Bool.and_eq_true] at hg
      exact hg
    obtain ⟨hchunk, halt, htgt⟩ := goodPair_spec _ hgs.1
    intro hmem
    rw [renderPairs, List.append_assoc] at hmem
    rcases List.mem_append.mp hmem with h1 | h1
    · exact (goodChunk_spec c hchunk '<' h1).2.2 rfl
    · rw [renderRef_append] at h1
      rcases List.mem_cons.mp h1 with h2 | h2
      · exact absurd h2 (by decide)
      rcases List.mem_cons.mp h2 with h3 | h3
      · exact absurd h3 (by decide)
      rcases List.mem_append.mp h3 with h4 | h4
      · exact (goodAlt_spec _ halt '<' h4).2.2.2 rfl
      rcases List.mem_cons.mp h4 with h5 | h5
      · exact absurd h5 (by decide)
      rcases List.mem_cons.mp h5 with h6 | h6
      · exact absurd h6 (by decide)
      rcases List.mem_append.mp h6 with h7 | h7
      · exact (cleanTargetCh_spec '<'
          ((goodTarget_spec _ htgt).2 '<' h7)).2.2.1 rfl
      rcases List.mem_cons.mp h7 with h8 | h8
      · exact absurd h8 (by decide)
      · exact ih hgs.2 h8

/-- Scan fuel is bounded by the rendered length. -/
theorem famFuel_le (ps : List (Text × FamRef)) (tailC : Text) :
    famFuel ps ≤ (renderPairs ps tailC).length := by
  induction ps with
  | nil => simp [famFuel]
  | cons pr rest ih =>
    obtain ⟨c, r⟩ := pr
    rw [famFuel, renderPairs]
    simp only [List.length_append, List.length_cons]
    have hr : 0 < (renderRef r).length := by
      have h0 := renderRef_append r []
      rw [List.append_nil] at h0
      rw [h0]
      simp
    omega

/-- `convert_paths_in_text` acts reference-by-reference on a well-behaved
structured text. -/
theorem convert_paths_pairs (assets dir : Comps) (ps : List (Text × FamRef))
    (tailC : Text) (hg : goodPairs ps = true) (ht : goodChunk tailC = true) :
    convert_paths_in_text assets dir (renderPairs ps tailC)
      = renderPairs (relPairsMap assets dir ps) tailC := by
  unfold convert_paths_in_text
  dsimp only
  have h1 : mdSubLoop assets dir ((renderPairs ps tailC).length + 1)
      (renderPairs ps tailC) = renderPairs (relPairsMap assets dir ps) tailC := by
    have hle := famFuel_le ps tailC
    rw [show (renderPairs ps tailC).length + 1
        = famFuel ps + ((renderPairs ps tailC).length + 1 - famFuel ps) from by
      omega]
    exact mdSubLoop_pairs assets dir ps tailC _ hg ht
  rw [h1]
  have hgm : goodPairs (relPairsMap assets dir ps) = true :=
    goodPairs_relPairsMap assets dir ps hg
  rw [htmlSubLoop_id assets dir "img".data "src=".data _
    (lt_notin_renderPairs _ tailC hgm ht)]
  rw [htmlSubLoop_id assets dir "a".data "href=".data _
    (lt_notin_renderPairs _ tailC hgm ht)]

/-- Missing targets leave the structured text unchanged with a zero count. -/
theorem absPairsMap_of_miss (fsE : Comps → Bool) (dir : Comps)
    (ps : List (Text × FamRef))
    (hmiss : ∀ p ∈ ps, fsE (resolveRel dir p.2.target) = false) :
    absPairsMap fsE dir ps = ps ∧ absPairsCount fsE dir ps = 0 := by
  induction ps with
  | nil => exact ⟨rfl, rfl⟩
  | cons pr rest ih =>
    obtain ⟨c, r⟩ := pr
    have hr : fsE (resolveRel dir r.target) = false := hmiss (c, r) (by simp)
    have hstep : absRefStep fsE dir r = r := by
      unfold absRefStep
      by_cases hurl : isUrlLike r.target ∨ isAbsPath r.target
      · rw [if_pos hurl]
      · rw [if_neg hurl, if_neg (by simp [hr])]
    have hcount : absRefCount fsE dir r = 0 := by
      unfold absRefCount
      by_cases hurl : isUrlLike r.target ∨ isAbsPath r.target
      · rw [if_pos hurl]
      · rw [if_neg hurl, if_neg (by simp [hr])]
    obtain ⟨ihm, ihc⟩ := ih (fun p hp => hmiss p (List.mem_cons_of_mem _ hp))
    constructor
    · simp only [absPairsMap, List.map_cons, hstep]
      simp only [absPairsMap] at ihm
      rw [ihm]
    · simp only [absPairsCount, List.map_cons, List.sum_cons, hcount]
      simp only [absPairsCount] at ihc
      rw [ihc]

/-- Unpack a canonical-family entry condition. -/
theorem goodCanonEntry_spec (assets dir : Comps) (fsE : Comps → Bool)
    (e : Text × Text × Comps) (h : goodCanonEntry assets dir fsE e = true) :
    goodChunk e.1 = true ∧ goodAlt e.2.1 = true ∧ cleanComps e.2.2 = true ∧
      assets.isPrefixOf e.2.2 = true ∧ fsE e.2.2 = true ∧
      isUrlLike (relpathComps e.2.2 dir) = false := by
  simp only [goodCanonEntry, Bool.and_eq_true, decide_eq_true_eq] at h
  exact h

/-- Canonical pairs are well-behaved. -/
theorem goodPairs_canon (assets dir : Comps) (fsE : Comps → Bool)
    (items : List (Text × Text × Comps))
    (hg : ∀ e ∈ items, goodCanonEntry assets dir fsE e = true) :
    goodPairs (items.map (canonPair dir)) = true := by
  induction items with
  | nil => rfl
  | cons e rest ih =>
    have he := goodCanonEntry_spec assets dir fsE e (hg e (by simp))
    simp only [List.map_cons, goodPairs, List.all_cons, Bool.and_eq_true]
    refine ⟨?_, ih (fun x hx => hg x (List.mem_cons_of_mem e hx))⟩
    simp only [canonPair, goodPair, Bool.and_eq_true, decide_eq_true_eq]
    exact ⟨he.1, he.2.1, goodTarget_relpath _ dir he.2.2.1⟩

/-- Absolute-form pairs are well-behaved. -/
theorem goodPairs_absForm (assets dir : Comps) (fsE : Comps → Bool)
    (items : List (Text × Text × Comps))
    (hg : ∀ e ∈ items, goodCanonEntry assets dir fsE e = true) :
    goodPairs (items.map absFormPair) = true := by
  induction items with
  | nil => rfl
  | cons e rest ih =>
    have he := goodCanonEntry_spec assets dir fsE e (hg e (by simp))
    simp only [List.map_cons, goodPairs, List.all_cons, Bool.and_eq_true]
    refine ⟨?_, ih (fun x hx => hg x (List.mem_cons_of_mem e hx))⟩
    simp only [absFormPair, goodPair, Bool.and_eq_true, decide_eq_true_eq]
    exact ⟨he.1, he.2.1, goodTarget_renderAbs _ he.2.2.1⟩

/-- The absolute pass sends each canonical pair to its absolute form. -/
theorem absPairsMap_canon (assets dir : Comps) (fsE : Comps → Bool)
    (items : List (Text × Text × Comps))
    (hg : ∀ e ∈ items, goodCanonEntry assets dir fsE e = true) :
    absPairsMap fsE dir (items.map (canonPair dir)) = items.map absFormPair := by
  induction items with
  | nil => rfl
  | cons e rest ih =>
    have he := goodCanonEntry_spec assets dir fsE e (hg e (by simp))
    simp only [absPairsMap, List.map_cons, List.cons.injEq]
    constructor
    · simp only [canonPair, absFormPair, Prod.mk.injEq]
      refine ⟨trivial, ?_⟩
      unfold absRefStep
      dsimp only
      rw [if_neg (by
        simp [he.2.2.2.2.2, relpath_not_abs e.2.2 dir he.2.2.1])]
      rw [resolveRel_relpathComps e.2.2 dir he.2.2.1]
      rw [if_pos he.2.2.2.2.1]
    · have := ih (fun x hx => hg x (List.mem_cons_of_mem e hx))
      simpa [absPairsMap] using this

/-- `convert_target_to_relative` on a rendered absolute assets path gives
the canonical relative path. -/
theorem ctr_renderAbs (assets dir p : Comps) (hp : cleanComps p = true)
    (hpre : assets.isPrefixOf p = true) :
    convert_target_to_relative assets dir (renderAbs p) = relpathComps p dir := by
  unfold convert_target_to_relative
  rw [strip_of_wsFree _ (wsFree_of_clean _ (renderAbs_clean p hp))]
  rw [stripAnglesPair_id (renderAbs p)
    (isPre_lt_head (renderAbs p) '/' ((p.intersperse "/".data).flatten) rfl
      (by decide))]
  dsimp only
  rw [if_neg (by simp [isUrlOrAnchor_renderAbs, renderAbs_isAbs])]
  rw [if_neg (by
    simp [insideAssets, resolveAbsStr_renderAbs p hp, hpre])]
  rw [resolveAbsStr_renderAbs p hp]
  rfl

/-- The relative pass sends each absolute-form pair to its canonical form. -/
theorem relPairsMap_absForm (assets dir : Comps) (fsE : Comps → Bool)
    (items : List (Text × Text × Comps))
    (hg : ∀ e ∈ items, goodCanonEntry assets dir fsE e = true) :
    relPairsMap assets dir (items.map absFormPair) = items.map (canonPair dir) := by
  induction items with
  | nil => rfl
  | cons e rest ih =>
    have he := goodCanonEntry_spec assets dir fsE e (hg e (by simp))
    simp only [relPairsMap, List.map_cons, List.cons.injEq]
    constructor
    · simp only [absFormPair, canonPair, Prod.mk.injEq]
      refine ⟨trivial, ?_⟩
      unfold relRefStep
      dsimp only
      rw [FamRef.mk.injEq]
      exact ⟨rfl, ctr_renderAbs assets dir e.2.2 he.2.2.1 he.2.2.2.1⟩
    · have := ih (fun x hx => hg x (List.mem_cons_of_mem e hx))
      simpa [relPairsMap] using this

/-- C1: round-trip invariant, amended.  The claim as stated is refuted by
`c1_round_trip_counterexample` (an angle-bracketed relative target comes
back without its angle brackets).  Amended form: for structured texts whose
image references carry the canonical relative targets (`os.path.relpath`
form) of existing clean component paths under the assets directory — clean
meaning free of angle brackets, parentheses, quotes, whitespace and code
delimiters — absolute-then-relative reproduces the text byte-for-byte, and
conversely a text whose references carry the rendered absolute forms of the
same paths is restored byte-for-byte by relative-then-absolute. -/
theorem c1_round_trip_amended (fsE : Comps → Bool) (assets dir : Comps)
    (items : List (Text × Text × Comps)) (tailC : Text)
    (hg : ∀ e ∈ items, goodCanonEntry assets dir fsE e = true)
    (ht : goodChunk tailC = true) :
    convert_paths_in_text assets dir
        (convertImagesInText fsE dir
          (renderPairs (items.map (canonPair dir)) tailC)).1
      = renderPairs (items.map (canonPair dir)) tailC
    ∧ (convertImagesInText fsE dir
        (convert_paths_in_text assets dir
          (renderPairs (items.map absFormPair) tailC))).1
      = renderPairs (items.map absFormPair) tailC := by
  have hgc := goodPairs_canon assets dir fsE items hg
  have hga := goodPairs_absForm assets dir fsE items hg
  constructor
  · rw [convertImages_pairs fsE dir _ tailC hgc ht]
    dsimp only
    rw [absPairsMap_canon assets dir fsE items hg]
    rw [convert_paths_pairs assets dir _ tailC hga ht]
    rw [relPairsMap_absForm assets dir fsE items hg]
  · rw [convert_paths_pairs assets dir _ tailC hga ht]
    rw [relPairsMap_absForm assets dir fsE items hg]
    rw [convertImages_pairs fsE dir _ tailC hgc ht]
    dsimp only
    rw [absPairsMap_canon assets dir fsE items hg]

/-- Witness for the amended round-trip theorem at a concrete asset. -/
theorem c1_round_trip_amended_witness :
    ((∀ e ∈ [(("see ".data : Text), ("a".data : Text),
        (["assets".data, "x.png".data] : Comps))],
      goodCanonEntry exAssets exDir fsX e = true)
    ∧ goodChunk " end".data = true)
    ∧ (convert_paths_in_text exAssets exDir
        (convertImagesInText fsX exDir
          (renderPairs ([(("see ".data : Text), ("a".data : Text),
            (["assets".data, "x.png".data] : Comps))].map (canonPair exDir))
            " end".data)).1
      = renderPairs ([(("see ".data : Text), ("a".data : Text),
          (["assets".data, "x.png".data] : Comps))].map (canonPair exDir))
          " end".data
    ∧ (convertImagesInText fsX exDir
        (convert_paths_in_text exAssets exDir
          (renderPairs ([(("see ".data : Text), ("a".data : Text),
            (["assets".data, "x.png".data] : Comps))].map absFormPair)
            " end".data))).1
      = renderPairs ([(("see ".data : Text), ("a".data : Text),
          (["assets".data, "x.png".data] : Comps))].map absFormPair)
          " end".data) :=
  ⟨⟨by decide, by decide⟩,
    c1_round_trip_amended fsX exAssets exDir
      [(("see ".data : Text), ("a".data : Text),
        (["assets".data, "x.png".data] : Comps))] " end".data
      (by decide) (by decide)⟩

/-- C3: idempotence of the path rewriters, amended.  The claim as stated is
refuted by `c3_idempotence_counterexample` (literal protection-placeholder
text makes the absolute pass non-idempotent).  Amended form: on structured
texts of well-behaved prose chunks and image references — no code
delimiters, no brackets in prose, clean targets — and a clean file
directory, the absolute pass applied twice equals the absolute pass once
with the second application converting zero references, and the relative
pass applied twice equals the relative pass once. -/
theorem c3_idempotence_amended (fsE : Comps → Bool) (assets dir : Comps)
    (ps : List (Text × FamRef)) (tailC : Text)
    (hg : goodPairs ps = true) (ht : goodChunk tailC = true)
    (hdir : cleanComps dir = true) :
    (convertImagesInText fsE dir
        (convertImagesInText fsE dir (renderPairs ps tailC)).1).1
      = (convertImagesInText fsE dir (renderPairs ps tailC)).1
    ∧ (convertImagesInText fsE dir
        (convertImagesInText fsE dir (renderPairs ps tailC)).1).2 = 0
    ∧ convert_paths_in_text assets dir
        (convert_paths_in_text assets dir (renderPairs ps tailC))
      = convert_paths_in_text assets dir (renderPairs ps tailC) := by
  have hg2 := goodPairs_absPairsMap fsE dir hdir ps hg
  have hgr := goodPairs_relPairsMap assets dir ps hg
  refine ⟨?_, ?_, ?_⟩
  · rw [convertImages_pairs fsE dir ps tailC hg ht]
    dsimp only
    rw [convertImages_pairs fsE dir _ tailC hg2 ht]
    dsimp only
    rw [absPairsMap_idem fsE dir ps]
  · rw [convertImages_pairs fsE dir ps tailC hg ht]
    dsimp only
    rw [convertImages_pairs fsE dir _ tailC hg2 ht]
    dsimp only
    rw [absPairsCount_stepped fsE dir ps]
  · rw [convert_paths_pairs assets dir ps tailC hg ht]
    rw [convert_paths_pairs assets dir _ tailC hgr ht]
    rw [relPairsMap_idem assets dir ps hg]

/-- Witness for the amended idempotence theorem at a concrete text. -/
theorem c3_idempotence_amended_witness :
    ((goodPairs [(("intro ".data : Text),
        (⟨"a".data, "../../assets/x.png".data⟩ : FamRef))] = true
      ∧ goodChunk " outro".data = true)
    ∧ cleanComps exDir = true)
    ∧ ((convertImagesInText fsX exDir
        (convertImagesInText fsX exDir
          (renderPairs [(("intro ".data : Text),
            (⟨"a".data, "../../assets/x.png".data⟩ : FamRef))]
            " outro".data)).1).1
      = (convertImagesInText fsX exDir
          (renderPairs [(("intro ".data : Text),
            (⟨"a".data, "../../assets/x.png".data⟩ : FamRef))]
            " outro".data)).1
    ∧ (convertImagesInText fsX exDir
        (convertImagesInText fsX exDir
          (renderPairs [(("intro ".data : Text),
            (⟨"a".data, "../../assets/x.png".data⟩ : FamRef))]
            " outro".data)).1).2 = 0
    ∧ convert_paths_in_text exAssets exDir
        (convert_paths_in_text exAssets exDir
          (renderPairs [(("intro ".data : Text),
            (⟨"a".data, "../../assets/x.png".data⟩ : FamRef))]
            " outro".data))
      = convert_paths_in_text exAssets exDir
          (renderPairs [(("intro ".data : Text),
            (⟨"a".data, "../../assets/x.png".data⟩ : FamRef))]
            " outro".data)) :=
  ⟨⟨⟨by decide, by decide⟩, by decide⟩,
    c3_idempotence_amended fsX exAssets exDir
      [(("intro ".data : Text),
        (⟨"a".data, "../../assets/x.png".data⟩ : FamRef))]
      " outro".data (by decide) (by decide) (by decide)⟩

/-- C5: non-existent-target safety, amended.  The claim as stated is
refuted by `c5_nonexistent_counterexample` (protection-placeholder
collisions change the text even though no reference is converted).  Amended
form: on structured texts of well-behaved chunks and references, if no
reference target resolves to an existing file, `_convert_images_in_text`
returns the text unchanged with a zero converted count, and raises no
error (it returns normally). -/
theorem c5_nonexistent_amended (fsE : Comps → Bool) (dir : Comps)
    (ps : List (Text × FamRef)) (tailC : Text)
    (hg : goodPairs ps = true) (ht : goodChunk tailC = true)
    (hmiss : ∀ p ∈ ps, fsE (resolveRel dir p.2.target) = false) :
    convertImagesInText fsE dir (renderPairs ps tailC)
      = (renderPairs ps tailC, 0) := by
  rw [convertImages_pairs fsE dir ps tailC hg ht]
  obtain ⟨hmap, hcount⟩ := absPairsMap_of_miss fsE dir ps hmiss
  rw [hmap, hcount]

/-- Witness for the amended non-existent-target theorem. -/
theorem c5_nonexistent_amended_witness :
    ((goodPairs [(("see ".data : Text),
        (⟨"x".data, "missing.png".data⟩ : FamRef))] = true
      ∧ goodChunk "!".data = true)
    ∧ (∀ p ∈ [(("see ".data : Text),
        (⟨"x".data, "missing.png".data⟩ : FamRef))],
      fsX (resolveRel exDir p.2.target) = false))
    ∧ convertImagesInText fsX exDir
        (renderPairs [(("see ".data : Text),
          (⟨"x".data, "missing.png".data⟩ : FamRef))] "!".data)
      = (renderPairs [(("see ".data : Text),
          (⟨"x".data, "missing.png".data⟩ : FamRef))] "!".data, 0) :=
  ⟨⟨⟨by decide, by decide⟩, by decide⟩,
    c5_nonexistent_amended fsX exDir
      [(("see ".data : Text), (⟨"x".data, "missing.png".data⟩ : FamRef))]
      "!".data (by decide) (by decide) (by decide)⟩

end BookExport
